import Mathlib

/-!
Verification of the Burrows-Wheeler core of the server-client-bwt repository
(`src/conversion_functions.py`).

The Python code is shallowly embedded: strings become `List Char`, numpy
integer arrays become `List Nat` (or accumulator functions `Nat → Nat` for the
rank arrays that are only ever read back pointwise), and the one fallible
routine (`revert_burrows_wheeler`, whose sentinel lookup
`np.where(bwt_array == '$')[0][0]` raises `IndexError` when no sentinel is
present) returns an `Option`.

`np.argsort(a, kind='mergesort')` is a stable argsort: it returns the indices
`0..n-1` reordered so that the values are nondecreasing and indices with equal
values stay in increasing order.  That is exactly the unique sorting of
`List.range n` by the lexicographic key `i ↦ (a i, i)`, which is how `argsort`
below is defined.
-/

namespace BWT

/-- The relation that orders index `i` before index `j` when `key i < key j`,
with ties broken by the index itself: the characteristic order of a stable
argsort. -/
def argKeyRel {K : Type} [LinearOrder K] (key : Nat → K) (i j : Nat) : Prop :=
  key i < key j ∨ (key i = key j ∧ i ≤ j)

instance {K : Type} [LinearOrder K] (key : Nat → K) : DecidableRel (argKeyRel key) :=
  fun _ _ => inferInstanceAs (Decidable (_ ∨ _))

instance {K : Type} [LinearOrder K] (key : Nat → K) : IsTotal Nat (argKeyRel key) := by
  constructor
  intro i j
  rcases lt_trichotomy (key i) (key j) with h | h | h
  · exact Or.inl (Or.inl h)
  · rcases Nat.le_total i j with hij | hij
    · exact Or.inl (Or.inr ⟨h, hij⟩)
    · exact Or.inr (Or.inr ⟨h.symm, hij⟩)
  · exact Or.inr (Or.inl h)

instance {K : Type} [LinearOrder K] (key : Nat → K) : IsTrans Nat (argKeyRel key) := by
  constructor
  rintro i j l (h₁ | ⟨he₁, hi₁⟩) (h₂ | ⟨he₂, hi₂⟩)
  · exact Or.inl (h₁.trans h₂)
  · exact Or.inl (he₂ ▸ h₁)
  · exact Or.inl (he₁ ▸ h₂)
  · exact Or.inr ⟨he₁.trans he₂, hi₁.trans hi₂⟩

instance {K : Type} [LinearOrder K] (key : Nat → K) : IsAntisymm Nat (argKeyRel key) := by
  constructor
  rintro i j (h₁ | ⟨he₁, hi₁⟩) (h₂ | ⟨he₂, hi₂⟩)
  · exact absurd h₂ (asymm h₁)
  · exact absurd h₁ (he₂ ▸ lt_irrefl _)
  · exact absurd h₂ (he₁ ▸ lt_irrefl _)
  · exact Nat.le_antisymm hi₁ hi₂

/-- `np.argsort(·, kind='mergesort')` over the values `key 0, …, key (n-1)`:
the permutation of `0..n-1` sorted by value with ties in index order. -/
def argsort {K : Type} [LinearOrder K] (key : Nat → K) (n : Nat) : List Nat :=
  List.insertionSort (argKeyRel key) (List.range n)

/-!
Embedding of `conversion_functions.py`, definition by definition.
-/

/-- The shared ranking loop (lines 24-30 of `calculate_ranks`, and lines 50-57
of `build_suffix_array`): walk the suffix indices in sorted order as pairs
`(suffix index, sort key)`, give the first suffix rank 0 (the array starts as
`np.zeros`), and give each further suffix the previous suffix's rank, plus one
when its key differs from the previous key. -/
def denseRankLoop {K : Type} [DecidableEq K] :
    List (Nat × K) → Nat × K → List Nat → List Nat
  | [], _, acc => acc
  | (x, v) :: rest, (xp, vp), acc =>
    let r := if v ≠ vp then acc.getD xp 0 + 1 else acc.getD xp 0
    denseRankLoop rest (x, v) (acc.set x r)

/-- Lines 22-30 shared shape: `next_ranks = np.zeros(...)` followed by the
ranking loop, which does nothing when there are no suffixes. -/
def rankPass {K : Type} [DecidableEq K] (ordered : List (Nat × K)) (zeros : List Nat) :
    List Nat :=
  match ordered with
  | [] => zeros
  | p :: rest => denseRankLoop rest p zeros

/-- `calculate_ranks(suffix_array, k, ranks)` (lines 7-32).  The rank tuples of
the structured dtype `[('rank1', int), ('rank2', int)]` with sort order
`['rank1', 'rank2']` are lexicographically ordered pairs, `Lex (Nat × Nat)`;
`!=` on two such tuples is plain tuple inequality. -/
def calculate_ranks (sa : List Nat) (k : Nat) (ranks : List Nat) : List Nat :=
  -- line 15: the array of rank tuples, one per entry of `suffix_array`
  let suffix_ranks : List (Lex (Nat × Nat)) :=
    sa.map (fun i => toLex (ranks.getD i 0, ranks.getD ((i + k) % ranks.length) 0))
  -- line 19: stable argsort of the tuples, ordered by rank1 then rank2
  let sorted_indices := argsort (fun j => suffix_ranks.getD j (toLex (0, 0))) suffix_ranks.length
  -- lines 22-30: `next_ranks = np.zeros(len(ranks))`, then the ranking loop in sorted order
  rankPass (sorted_indices.map (fun j => (sa.getD j 0, suffix_ranks.getD j (toLex (0, 0)))))
    (List.replicate ranks.length 0)

/-- The `while k < len(seq)` loop of `build_suffix_array` (lines 61-81),
embedded with an explicit iteration bound: since `k` starts at 1 and doubles
every pass, the loop runs fewer than `len(seq)` times, so running it with fuel
`len(seq)` is the whole `while` loop. -/
def saLoop (n : Nat) (sa : List Nat) (ranks : List Nat) (k : Nat) : Nat → List Nat
  | 0 => sa
  | fuel + 1 =>
    if k < n then
      -- line 65: the array of rank tuples over the current suffix array
      let suffix_ranks : List (Lex (Nat × Nat)) :=
        sa.map (fun i => toLex (ranks.getD i 0, ranks.getD ((i + k) % n) 0))
      -- line 68: stable argsort of the tuples
      let sorted_indices :=
        argsort (fun j => suffix_ranks.getD j (toLex (0, 0))) suffix_ranks.length
      -- line 71: reorder the suffix array
      let sa' := sorted_indices.map (fun j => sa.getD j 0)
      -- line 74: update the ranks
      let ranks' := calculate_ranks sa' k ranks
      -- lines 77-81: double k, with early exit when all ranks are distinct
      if ranks'.getD (sa'.getD (sa'.length - 1) 0) 0 = n - 1 then sa'
      else saLoop n sa' ranks' (2 * k) fuel
    else sa

/-- `build_suffix_array(seq)` (lines 35-83). -/
def build_suffix_array (seq : List Char) : List Nat :=
  -- line 45: initial stable argsort of the single characters
  let suffix_array := argsort (fun i => seq.getD i 'A') seq.length
  -- lines 48-57: `ranks = np.zeros(len(seq))`, then the initial ranking loop
  let ranks :=
    rankPass (suffix_array.map (fun i => (i, seq.getD i 'A'))) (List.replicate seq.length 0)
  -- lines 61-81: the doubling loop, starting at k = 1
  saLoop seq.length suffix_array ranks 1 seq.length

/-- `burrows_wheeler_conversion(seq)` (lines 86-106).  Python's `(i - 1) %
len(seq)` on the possibly negative `i - 1` is integer flooring modulus, i.e.
`Int.emod` against the positive length. -/
def burrows_wheeler_conversion (seq : List Char) : List Char :=
  -- line 93: append the sentinel
  let seq' := seq ++ [ '$' ]
  -- line 96: build the suffix array of the extended sequence
  let suffix_array := build_suffix_array seq'
  -- line 103: for each suffix-array entry i, the character at (i - 1) mod len
  suffix_array.map (fun (i : Nat) => seq'.getD ((((i : Int) - 1) % (seq'.length : Int)).toNat) 'A')

/-- The traversal loop of `map_last_to_first` (lines 139-146): `char_counts` is
the `defaultdict(int)` of occurrence counts seen so far. -/
def lfLoop (first : Char → Nat) : List Char → (Char → Nat) → List Nat
  | [], _ => []
  | c :: rest, char_counts =>
    (first c + char_counts c) ::
      lfLoop first rest (fun d => if d = c then char_counts d + 1 else char_counts d)

/-- `map_last_to_first(bwt)` (lines 113-148).  The dictionary `first` of first
occurrences in the sorted column (lines 133-136) is embedded as
`first_col.indexOf`; the Python dict is only ever read at characters of `bwt`,
all of which occur in `first_col`, where both agree. -/
def map_last_to_first (bwt : List Char) : List Nat :=
  -- line 127: the first column is the sorted last column
  let first_col := List.insertionSort (fun a b => a ≤ b) bwt
  -- lines 133-136: index of the first occurrence of each character
  let first : Char → Nat := fun c => first_col.indexOf c
  -- lines 139-146: the traversal with per-character occurrence counts
  lfLoop first bwt (fun _ => 0)

/-- The reconstruction loop of `revert_burrows_wheeler` (lines 167-174): after
`m` iterations starting from index `idx`, the deque holds the visited
characters with the most recently visited first. -/
def revertLoop (bwt : List Char) (last_to_first : List Nat) : Nat → Nat → List Char
  | 0, _ => []
  | m + 1, idx =>
    revertLoop bwt last_to_first m (last_to_first.getD idx 0) ++ [bwt.getD idx 'A']

/-- `revert_burrows_wheeler(bwt)` (lines 151-177).  The sentinel lookup
`np.where(bwt_array == '$')[0][0]` (line 163) picks the first index holding
`'$'` and raises `IndexError` when there is none, embedded as `none`.  The
final `[:-1]` (line 177) drops the last character of the joined deque. -/
def revert_burrows_wheeler (bwt : List Char) : Option (List Char) :=
  let last_to_first := map_last_to_first bwt
  if _h : '$' ∈ bwt then
    some ((revertLoop bwt last_to_first bwt.length (bwt.indexOf '$')).dropLast)
  else none

/-!
Reference notions the specification speaks about: suffixes, circular rotations,
and full lexicographic sorts of start offsets with ties broken by index.
-/

/-- The rotation of `s` starting at offset `i` (for `i < s.length`): the suffix
followed by the wrapped-around beginning. -/
def rot (s : List Char) (i : Nat) : List Char := s.drop i ++ s.take i

/-- The first `m` characters read circularly from offset `i`. -/
def cycPre (s : List Char) (m i : Nat) : List Char :=
  (List.range m).map (fun t => s.getD ((i + t) % s.length) 'A')

/-- Reference sort: all rotation start offsets in full lexicographic order of
the rotations, ties broken by the original index. -/
def refRotationSort (s : List Char) : List Nat :=
  argsort (fun i => rot s i) s.length

/-- Reference sort: all suffix start offsets in full lexicographic order of the
suffixes, ties broken by the original index. -/
def refSuffixSort (s : List Char) : List Nat :=
  argsort (fun i => s.drop i) s.length

/-!
### Specification of the stable argsort
-/

section ArgsortSpec

variable {K : Type} [LinearOrder K]

theorem argsort_perm (key : Nat → K) (n : Nat) : (argsort key n).Perm (List.range n) :=
  List.perm_insertionSort _ _

theorem argsort_sorted (key : Nat → K) (n : Nat) :
    List.Sorted (argKeyRel key) (argsort key n) :=
  List.sorted_insertionSort _ _

theorem argsort_length (key : Nat → K) (n : Nat) : (argsort key n).length = n := by
  rw [(argsort_perm key n).length_eq, List.length_range]

theorem mem_argsort (key : Nat → K) (n : Nat) {i : Nat} : i ∈ argsort key n ↔ i < n := by
  rw [(argsort_perm key n).mem_iff, List.mem_range]

theorem argsort_nodup (key : Nat → K) (n : Nat) : (argsort key n).Nodup :=
  (argsort_perm key n).nodup_iff.mpr (List.nodup_range n)

/-- A sorted permutation of `0..n-1` is the argsort: uniqueness of stable
sorting. -/
theorem eq_argsort_of_sorted {key : Nat → K} {n : Nat} {l : List Nat}
    (hp : l.Perm (List.range n)) (hs : List.Sorted (argKeyRel key) l) :
    l = argsort key n :=
  List.eq_of_perm_of_sorted (hp.trans (argsort_perm key n).symm) hs (argsort_sorted key n)

theorem argsort_getD_lt (key : Nat → K) {n p : Nat} (hp : p < n) :
    (argsort key n).getD p 0 < n := by
  have hl : p < (argsort key n).length := by rw [argsort_length]; exact hp
  rw [List.getD_eq_getElem _ _ hl]
  exact (mem_argsort key n).1 (List.getElem_mem hl)

theorem argsort_rel (key : Nat → K) {n p q : Nat} (hpq : p < q) (hq : q < n) :
    argKeyRel key ((argsort key n).getD p 0) ((argsort key n).getD q 0) := by
  have hq' : q < (argsort key n).length := by rw [argsort_length]; exact hq
  have hp' : p < (argsort key n).length := lt_trans hpq hq'
  rw [List.getD_eq_getElem _ _ hp', List.getD_eq_getElem _ _ hq']
  have h := (argsort_sorted key n).rel_get_of_lt
    (a := ⟨p, hp'⟩) (b := ⟨q, hq'⟩) (Fin.mk_lt_mk.mpr hpq)
  simpa [List.get_eq_getElem] using h

/-- Two keys that induce the same strict order and the same equalities on
`0..n-1` have the same stable argsort. -/
theorem argsort_congr {K₂ : Type} [LinearOrder K₂] {key : Nat → K} {key₂ : Nat → K₂} {n : Nat}
    (h : ∀ i j, i < n → j < n →
      ((key i < key j ↔ key₂ i < key₂ j) ∧ (key i = key j ↔ key₂ i = key₂ j))) :
    argsort key n = argsort key₂ n := by
  refine (eq_argsort_of_sorted (argsort_perm key₂ n) ?_).symm
  refine List.Pairwise.imp_of_mem ?_ (argsort_sorted key₂ n)
  intro a b ha hb hab
  have ha' := (mem_argsort key₂ n).1 ha
  have hb' := (mem_argsort key₂ n).1 hb
  rcases hab with h1 | ⟨h2, h3⟩
  · exact Or.inl (((h a b ha' hb').1).mpr h1)
  · exact Or.inr ⟨((h a b ha' hb').2).mpr h2, h3⟩

/-- The stable argsort of a nondecreasing key is the identity permutation. -/
theorem argsort_eq_range {key : Nat → K} {n : Nat}
    (h : ∀ i j, i ≤ j → j < n → key i ≤ key j) : argsort key n = List.range n := by
  refine (eq_argsort_of_sorted (List.Perm.refl _) ?_).symm
  refine List.Pairwise.imp_of_mem ?_ (List.pairwise_lt_range n)
  intro a b ha hb hab
  have hb' := List.mem_range.1 hb
  rcases lt_or_eq_of_le (h a b (le_of_lt hab) hb') with h1 | h1
  · exact Or.inl h1
  · exact Or.inr ⟨h1, le_of_lt hab⟩

end ArgsortSpec

/-!
### Specification of the ranking loop
-/

/-- Number of key changes along `v 0, v 1, …, v i`: the dense rank that the
ranking loop assigns to the suffix at sorted position `i`. -/
def changes {K : Type} [DecidableEq K] (v : Nat → K) : Nat → Nat
  | 0 => 0
  | i + 1 => changes v i + (if v (i + 1) ≠ v i then 1 else 0)

section RankLoop

variable {K : Type} [DecidableEq K]

theorem getD_set_self {l : List Nat} {x r : Nat} (h : x < l.length) :
    (l.set x r).getD x 0 = r := by
  rw [List.getD_eq_getElem?_getD, List.getElem?_set_self h]
  rfl

theorem getD_set_ne {l : List Nat} {x r y : Nat} (h : x ≠ y) :
    (l.set x r).getD y 0 = l.getD y 0 := by
  rw [List.getD_eq_getElem?_getD, List.getElem?_set_ne h, ← List.getD_eq_getElem?_getD]

theorem denseRankLoop_length :
    ∀ (rest : List (Nat × K)) (p : Nat × K) (acc : List Nat),
      (denseRankLoop rest p acc).length = acc.length
  | [], _, _ => rfl
  | (x, v) :: rest, (xp, vp), acc => by
    rw [denseRankLoop]
    rw [denseRankLoop_length rest _ _, List.length_set]

/-- Unrolled behaviour of the ranking loop over positions
`start+1, …, start+m`, given that the accumulator already holds the correct
dense rank for position `start`. -/
theorem denseRankLoop_spec (x : Nat → Nat) (v : Nat → K) :
    ∀ (m start : Nat) (acc : List Nat),
      (∀ i j, i ≤ start + m → j ≤ start + m → x i = x j → i = j) →
      (∀ i, i ≤ start + m → x i < acc.length) →
      acc.getD (x start) 0 = changes v start →
      (∀ i, start < i → i ≤ start + m →
        (denseRankLoop ((List.range' (start + 1) m).map (fun i => (x i, v i)))
            (x start, v start) acc).getD (x i) 0 = changes v i) ∧
      (∀ y, (∀ i, start < i → i ≤ start + m → y ≠ x i) →
        (denseRankLoop ((List.range' (start + 1) m).map (fun i => (x i, v i)))
            (x start, v start) acc).getD y 0 = acc.getD y 0)
  | 0, start, acc => by
    intro _ _ _
    constructor
    · intro i h1 h2
      omega
    · intro y _
      rfl
  | m + 1, start, acc => by
    intro hinj hbound hacc
    have hxb : x (start + 1) < acc.length := hbound _ (by omega)
    rw [List.range'_succ, List.map_cons, denseRankLoop]
    set r := if v (start + 1) ≠ v start then acc.getD (x start) 0 + 1 else acc.getD (x start) 0
      with hr
    have hrv : r = changes v (start + 1) := by
      rw [hr, hacc, changes]
      by_cases hvv : v (start + 1) ≠ v start <;> simp [hvv]
    have hset : (acc.set (x (start + 1)) r).getD (x (start + 1)) 0 = changes v (start + 1) := by
      rw [getD_set_self hxb, hrv]
    have ih := denseRankLoop_spec x v m (start + 1) (acc.set (x (start + 1)) r)
      (by intro i j hi hj; exact hinj i j (by omega) (by omega))
      (by intro i hi; rw [List.length_set]; exact hbound i (by omega))
      hset
    constructor
    · intro i h1 h2
      rcases Nat.lt_or_ge (start + 1) i with h3 | h3
      · exact ih.1 i h3 (by omega)
      · have hi1 : i = start + 1 := by omega
        subst hi1
        rw [ih.2 _ (by
          intro j hj1 hj2 hxe
          have := hinj _ _ (by omega) (by omega) hxe
          omega)]
        exact hset
    · intro y hy
      rw [ih.2 y (by intro i h1 h2; exact hy i (by omega) (by omega))]
      exact getD_set_ne (fun he => hy (start + 1) (by omega) (by omega) he.symm)

theorem map_range_eq_cons {α : Type} (g : Nat → α) {n : Nat} (hn : 0 < n) :
    (List.range n).map g = g 0 :: (List.range' 1 (n - 1)).map g := by
  rcases n with _ | m
  · omega
  · rw [List.range_eq_range', List.range'_succ, List.map_cons]
    rfl

/-- Call-site form of the ranking-loop specification: starting from
`np.zeros`, the loop ends with `x i ↦ changes v i` on the image of `x`. -/
theorem denseRank_ranks (x : Nat → Nat) (v : Nat → K) (n L : Nat)
    (hn : 0 < n)
    (hinj : ∀ i j, i < n → j < n → x i = x j → i = j)
    (hbound : ∀ i, i < n → x i < L) :
    (∀ i, i < n →
      (denseRankLoop ((List.range' 1 (n - 1)).map (fun i => (x i, v i)))
          (x 0, v 0) (List.replicate L 0)).getD (x i) 0 = changes v i) ∧
    (denseRankLoop ((List.range' 1 (n - 1)).map (fun i => (x i, v i)))
        (x 0, v 0) (List.replicate L 0)).length = L := by
  have h0 : (List.replicate L 0).getD (x 0) 0 = changes v 0 := by
    rcases Nat.lt_or_ge (x 0) L with h | h
    · rw [List.getD_eq_getElem _ _ (by simpa using h), List.getElem_replicate]
      rfl
    · rw [List.getD_eq_getElem?_getD, List.getElem?_eq_none (by simpa using h)]
      rfl
  have hs := denseRankLoop_spec x v (n - 1) 0 (List.replicate L 0)
    (by intro i j hi hj; exact hinj i j (by omega) (by omega))
    (by intro i hi; simpa using hbound i (by omega))
    h0
  constructor
  · intro i hi
    rcases Nat.eq_zero_or_pos i with h | h
    · subst h
      rw [hs.2 _ (by
        intro j h1 h2 hxe
        have := hinj _ _ (by omega) (by omega) hxe
        omega)]
      exact h0
    · exact hs.1 i (by omega) (by omega)
  · rw [denseRankLoop_length, List.length_replicate]

end RankLoop

section ChangesOrder

variable {K : Type} [LinearOrder K] (v : Nat → K)

theorem changes_le : ∀ i, changes v i ≤ i
  | 0 => le_refl 0
  | i + 1 => by
    rw [changes]
    have h := changes_le i
    split <;> omega

theorem changes_mono {i j : Nat} (h : i ≤ j) : changes v i ≤ changes v j := by
  induction j, h using Nat.le_induction with
  | base => exact le_refl _
  | succ j hj ih =>
    refine le_trans ih ?_
    rw [changes]
    split <;> omega

theorem changes_add_le : ∀ t d, changes v (t + d) ≤ changes v t + d
  | _, 0 => le_refl _
  | t, d + 1 => by
    rw [← Nat.add_assoc, changes]
    have h := changes_add_le t d
    split <;> omega

variable {N : Nat}

theorem changes_eq_of_sorted (hv : ∀ a b, a ≤ b → b ≤ N → v a ≤ v b) :
    ∀ {i j : Nat}, i ≤ j → j ≤ N → v i = v j → changes v i = changes v j := by
  intro i j hij
  induction j, hij using Nat.le_induction with
  | base => intro _ _; rfl
  | succ j hj ih =>
    intro hjN hvij
    have h1 : v i ≤ v j := hv i j hj (by omega)
    have h2 : v j ≤ v (j + 1) := hv j (j + 1) (by omega) hjN
    have hvj : v i = v j := le_antisymm h1 (hvij ▸ h2)
    have hstep : ¬(v (j + 1) ≠ v j) := by
      rw [← hvij, hvj]
      exact fun h => h rfl
    rw [ih (by omega) hvj, changes, if_neg hstep]
    omega

theorem changes_lt_of_sorted (hv : ∀ a b, a ≤ b → b ≤ N → v a ≤ v b) :
    ∀ {i j : Nat}, i ≤ j → j ≤ N → v i ≠ v j → changes v i < changes v j := by
  intro i j hij
  induction j, hij using Nat.le_induction with
  | base => intro _ h; exact absurd rfl h
  | succ j hj ih =>
    intro hjN hne
    by_cases hvj : v i = v j
    · have hstep : v (j + 1) ≠ v j := fun h => hne (by rw [h, hvj])
      rw [changes, if_pos hstep, ← changes_eq_of_sorted v hv hj (by omega) hvj]
      omega
    · have h := ih (by omega) hvj
      have h2 : changes v j ≤ changes v (j + 1) := changes_mono v (by omega)
      omega

theorem changes_lt_iff_of_sorted (hv : ∀ a b, a ≤ b → b ≤ N → v a ≤ v b)
    {p q : Nat} (hp : p ≤ N) (hq : q ≤ N) :
    changes v p < changes v q ↔ v p < v q := by
  rcases le_or_lt p q with h | h
  · constructor
    · intro hc
      rcases lt_or_eq_of_le (hv p q h hq) with h1 | h1
      · exact h1
      · rw [changes_eq_of_sorted v hv h hq h1] at hc
        omega
    · intro hvv
      exact changes_lt_of_sorted v hv h hq (ne_of_lt hvv)
  · have h1 : v q ≤ v p := hv q p (le_of_lt h) hp
    have h2 : changes v q ≤ changes v p := changes_mono v (le_of_lt h)
    constructor
    · intro hc; omega
    · intro hvv; exact absurd hvv (not_lt_of_ge h1)

theorem changes_eq_iff_of_sorted (hv : ∀ a b, a ≤ b → b ≤ N → v a ≤ v b)
    {p q : Nat} (hp : p ≤ N) (hq : q ≤ N) :
    changes v p = changes v q ↔ v p = v q := by
  constructor
  · intro hc
    by_contra hne
    rcases lt_or_gt_of_ne hne with h1 | h1
    · have := (changes_lt_iff_of_sorted v hv hp hq).mpr h1
      omega
    · have := (changes_lt_iff_of_sorted v hv hq hp).mpr h1
      omega
  · intro hvv
    rcases le_or_lt p q with h | h
    · exact changes_eq_of_sorted v hv h hq hvv
    · exact (changes_eq_of_sorted v hv (le_of_lt h) hp hvv.symm).symm

theorem changes_all_eq_of_last {t : Nat} (hc : changes v N = N) (ht : t ≤ N) :
    changes v t = t := by
  have h1 : changes v t ≤ t := changes_le v t
  have h2 : changes v N ≤ changes v t + (N - t) := by
    have := changes_add_le v t (N - t)
    rw [Nat.add_sub_cancel' ht] at this
    exact this
  omega

/-- The early-exit test: the final rank equals `n - 1` exactly when the sort
keys are pairwise distinct over positions `0..N`. -/
theorem changes_last_iff_inj (hv : ∀ a b, a ≤ b → b ≤ N → v a ≤ v b) :
    changes v N = N ↔ ∀ p q, p ≤ N → q ≤ N → v p = v q → p = q := by
  constructor
  · intro h p q hp hq hvv
    by_contra hne
    have key : ∀ t, t < N → v (t + 1) ≠ v t := by
      intro t htN
      have h1 : changes v (t + 1) = t + 1 := changes_all_eq_of_last v h (by omega)
      have h2 : changes v t = t := changes_all_eq_of_last v h (by omega)
      intro heq
      rw [changes, if_neg (by exact fun hx => hx heq), h2] at h1
      omega
    rcases lt_or_gt_of_ne hne with h1 | h1
    · have hs : v p = v (p + 1) := by
        have ha : v p ≤ v (p + 1) := hv p (p + 1) (by omega) (by omega)
        have hb : v (p + 1) ≤ v q := hv (p + 1) q (by omega) hq
        exact le_antisymm ha (hvv ▸ hb)
      exact key p (by omega) hs.symm
    · have hs : v q = v (q + 1) := by
        have ha : v q ≤ v (q + 1) := hv q (q + 1) (by omega) (by omega)
        have hb : v (q + 1) ≤ v q := by
          have hb0 : v (q + 1) ≤ v p := hv (q + 1) p (by omega) hp
          rw [hvv] at hb0
          exact hb0
        exact le_antisymm ha hb
      exact key q (by omega) hs.symm
  · intro hinj
    have key : ∀ t, t ≤ N → changes v t = t := by
      intro t
      induction t with
      | zero => intro _; rfl
      | succ t ih =>
        intro ht
        have hne : v (t + 1) ≠ v t := by
          intro heq
          have := hinj (t + 1) t (by omega) (by omega) heq
          omega
        rw [changes, if_pos hne, ih (by omega)]
    exact key N (le_refl N)

end ChangesOrder

/-!
### Lexicographic order on lists: block comparison lemmas
-/

section ListLex

variable {α : Type} [LinearOrder α]

theorem lt_cons_iff {a b : α} {u w : List α} :
    (a :: u) < (b :: w) ↔ a < b ∨ (a = b ∧ u < w) := by
  show List.Lex _ _ _ ↔ _
  constructor
  · intro h
    cases h with
    | cons h => exact Or.inr ⟨rfl, h⟩
    | rel h => exact Or.inl h
  · rintro (h | ⟨rfl, h⟩)
    · exact List.Lex.rel h
    · exact List.Lex.cons h

theorem not_lt_nil (u : List α) : ¬u < [] :=
  List.Lex.not_nil_right _ _

/-- Lexicographic comparison of equal-length blocks followed by arbitrary
tails: the blocks decide, with the tails as tie-break. -/
theorem append_lt_append_iff :
    ∀ {u w : List α}, u.length = w.length → ∀ {x y : List α},
      (u ++ x < w ++ y ↔ u < w ∨ (u = w ∧ x < y))
  | [], [], _, x, y => by
    rw [List.nil_append, List.nil_append]
    constructor
    · intro h
      exact Or.inr ⟨rfl, h⟩
    · rintro (h | ⟨_, h⟩)
      · exact absurd h (not_lt_nil _)
      · exact h
  | [], b :: w, h, _, _ => by simp at h
  | a :: u, [], h, _, _ => by simp at h
  | a :: u, b :: w, h, x, y => by
    rw [List.cons_append, List.cons_append, lt_cons_iff, lt_cons_iff,
      append_lt_append_iff (by simpa using h) (x := x) (y := y)]
    simp only [List.cons.injEq]
    tauto

theorem append_lt_append_of_lt {u w x y : List α} (h : u.length = w.length)
    (huw : u < w) : u ++ x < w ++ y :=
  (append_lt_append_iff h).mpr (Or.inl huw)

end ListLex

/-!
### Circular prefixes
-/

section CycPre

theorem cycPre_length (s : List Char) (m i : Nat) : (cycPre s m i).length = m := by
  unfold cycPre
  rw [List.length_map, List.length_range]

theorem cycPre_zero (s : List Char) (i : Nat) : cycPre s 0 i = [] := rfl

theorem cycPre_getElem (s : List Char) (m i t : Nat) (h : t < (cycPre s m i).length) :
    (cycPre s m i)[t] = s.getD ((i + t) % s.length) 'A' := by
  unfold cycPre at h ⊢
  rw [List.getElem_map, List.getElem_range]

/-- Splitting a circular prefix into two consecutive blocks. -/
theorem cycPre_add (s : List Char) (a b i : Nat) :
    cycPre s (a + b) i = cycPre s a i ++ cycPre s b (i + a) := by
  refine List.ext_getElem ?_ ?_
  · rw [cycPre_length, List.length_append, cycPre_length, cycPre_length]
  · intro t h1 h2
    rw [cycPre_getElem]
    rcases Nat.lt_or_ge t a with ht | ht
    · rw [List.getElem_append_left (by rw [cycPre_length]; exact ht), cycPre_getElem]
    · rw [List.getElem_append_right (by rw [cycPre_length]; exact ht), cycPre_getElem]
      rw [cycPre_length]
      congr 2
      omega

theorem cycPre_mod (s : List Char) (m i : Nat) :
    cycPre s m (i % s.length) = cycPre s m i := by
  refine List.ext_getElem (by rw [cycPre_length, cycPre_length]) ?_
  intro t h1 h2
  rw [cycPre_getElem, cycPre_getElem, Nat.mod_add_mod]

theorem cycPre_take (s : List Char) {r m : Nat} (i : Nat) (h : r ≤ m) :
    (cycPre s m i).take r = cycPre s r i := by
  unfold cycPre
  rw [← List.map_take, List.take_range, Nat.min_eq_left h]

theorem cycPre_eq_iff (s : List Char) {m i j : Nat} :
    cycPre s m i = cycPre s m j ↔
      ∀ t, t < m → s.getD ((i + t) % s.length) 'A' = s.getD ((j + t) % s.length) 'A' := by
  unfold cycPre
  rw [List.map_eq_map_iff]
  constructor
  · intro h t ht
    exact h t (List.mem_range.mpr ht)
  · intro h t ht
    exact h t (List.mem_range.1 ht)

theorem add_mod_mod (i t n : Nat) : (i + t % n) % n = (i + t) % n := by
  conv_rhs => rw [Nat.add_mod]
  conv_lhs => rw [Nat.add_mod]
  rw [Nat.mod_mod_of_dvd t (dvd_refl n)]

/-- Periodicity: indices that agree on one full period agree on every circular
prefix. -/
theorem cycPre_of_period (s : List Char) {i j : Nat} (hn : 0 < s.length)
    (h : cycPre s s.length i = cycPre s s.length j) (m : Nat) :
    cycPre s m i = cycPre s m j := by
  rw [cycPre_eq_iff] at h ⊢
  intro t _
  have ht := h (t % s.length) (Nat.mod_lt _ hn)
  calc s.getD ((i + t) % s.length) 'A'
      = s.getD ((i + t % s.length) % s.length) 'A' := by rw [add_mod_mod]
    _ = s.getD ((j + t % s.length) % s.length) 'A' := ht
    _ = s.getD ((j + t) % s.length) 'A' := by rw [add_mod_mod]

end CycPre

/-!
### One sorting-and-ranking pass
-/

section Pass

theorem getD_map {α β : Type} (f : α → β) (l : List α) {j : Nat} (h : j < l.length)
    (d : β) (d' : α) : (l.map f).getD j d = f (l.getD j d') := by
  rw [List.getD_eq_getElem _ _ (by simpa using h), List.getD_eq_getElem _ _ h, List.getElem_map]

theorem map_eq_range_map {α β : Type} (f : α → β) (l : List α) (d : α) :
    l.map f = (List.range l.length).map (fun p => f (l.getD p d)) := by
  refine List.ext_getElem (by simp) ?_
  intro t h1 h2
  rw [List.getElem_map, List.getElem_map, List.getElem_range,
    List.getD_eq_getElem _ _ (by simpa using h1)]

theorem getD_inj_of_nodup {l : List Nat} (h : l.Nodup) {p q : Nat}
    (hp : p < l.length) (hq : q < l.length) (he : l.getD p 0 = l.getD q 0) : p = q := by
  rw [List.getD_eq_getElem _ _ hp, List.getD_eq_getElem _ _ hq] at he
  exact (h.getElem_inj_iff).mp he

theorem exists_argsort_getD {K : Type} [LinearOrder K] (key : Nat → K) {n i : Nat}
    (hi : i < n) : ∃ p, p < n ∧ (argsort key n).getD p 0 = i := by
  have hmem : i ∈ argsort key n := (mem_argsort key n).mpr hi
  obtain ⟨p, hp, he⟩ := List.getElem_of_mem hmem
  refine ⟨p, by rw [← argsort_length key n]; exact hp, ?_⟩
  rw [List.getD_eq_getElem _ _ hp, he]

/-- The ranking pass that both `build_suffix_array`'s initial loop and
`calculate_ranks` perform: rank the suffixes in the order of the stable argsort
of `key`, incrementing on every key change. -/
def passRanks {K : Type} [LinearOrder K] (key : Nat → K) (n : Nat) : List Nat :=
  rankPass
    ((List.range n).map
      (fun p => ((argsort key n).getD p 0, key ((argsort key n).getD p 0))))
    (List.replicate n 0)

theorem passRanks_eq {K : Type} [LinearOrder K] (key : Nat → K) {n : Nat} (hn : 0 < n) :
    passRanks key n =
      denseRankLoop
        ((List.range' 1 (n - 1)).map
          (fun p => ((argsort key n).getD p 0, key ((argsort key n).getD p 0))))
        ((argsort key n).getD 0 0, key ((argsort key n).getD 0 0))
        (List.replicate n 0) := by
  unfold passRanks
  rw [map_range_eq_cons _ hn]
  rfl

/-- Everything the doubling loop needs to know about the ranks produced by one
pass: they order-represent the sort key on `0..n-1`, and the rank of the last
suffix in sorted order is `n - 1` exactly when the key is injective. -/
theorem passRanks_spec {K : Type} [LinearOrder K] (key : Nat → K) (n : Nat) (hn : 0 < n) :
    (passRanks key n).length = n ∧
    (∀ i j, i < n → j < n →
      ((passRanks key n).getD i 0 < (passRanks key n).getD j 0 ↔ key i < key j)) ∧
    (∀ i j, i < n → j < n →
      ((passRanks key n).getD i 0 = (passRanks key n).getD j 0 ↔ key i = key j)) ∧
    ((passRanks key n).getD ((argsort key n).getD (n - 1) 0) 0 = n - 1 ↔
      ∀ p q, p < n → q < n → key p = key q → p = q) := by
  have hxlt : ∀ p, p < n → (argsort key n).getD p 0 < n :=
    fun p hp => argsort_getD_lt key hp
  have hinj : ∀ p q, p < n → q < n →
      (argsort key n).getD p 0 = (argsort key n).getD q 0 → p = q := by
    intro p q hp hq he
    refine getD_inj_of_nodup (argsort_nodup key n) ?_ ?_ he <;>
      rw [argsort_length] <;> omega
  have hvmono : ∀ a b, a ≤ b → b ≤ n - 1 →
      key ((argsort key n).getD a 0) ≤ key ((argsort key n).getD b 0) := by
    intro a b hab hb
    rcases Nat.lt_or_ge a b with h | h
    · rcases argsort_rel key (n := n) h (by omega) with h1 | h1
      · exact le_of_lt h1
      · exact le_of_eq h1.1
    · have hab' : a = b := by omega
      subst hab'
      exact le_refl _
  have hdr := denseRank_ranks (fun p => (argsort key n).getD p 0)
    (fun p => key ((argsort key n).getD p 0)) n n hn hinj hxlt
  have hval : ∀ p, p < n → (passRanks key n).getD ((argsort key n).getD p 0) 0 =
      changes (fun p => key ((argsort key n).getD p 0)) p := by
    intro p hp
    rw [passRanks_eq key hn]
    exact hdr.1 p hp
  have hplen : (passRanks key n).length = n := by
    rw [passRanks_eq key hn]
    exact hdr.2
  refine ⟨hplen, ?_, ?_, ?_⟩
  · intro i j hi hj
    obtain ⟨p, hp, hxp⟩ := exists_argsort_getD key hi
    obtain ⟨q, hq, hxq⟩ := exists_argsort_getD key hj
    have h1 := changes_lt_iff_of_sorted (fun p => key ((argsort key n).getD p 0)) hvmono
      (p := p) (q := q) (by omega) (by omega)
    rw [← hxp, ← hxq, hval p hp, hval q hq]
    exact h1
  · intro i j hi hj
    obtain ⟨p, hp, hxp⟩ := exists_argsort_getD key hi
    obtain ⟨q, hq, hxq⟩ := exists_argsort_getD key hj
    have h1 := changes_eq_iff_of_sorted (fun p => key ((argsort key n).getD p 0)) hvmono
      (p := p) (q := q) (by omega) (by omega)
    rw [← hxp, ← hxq, hval p hp, hval q hq]
    exact h1
  · have h1 := changes_last_iff_inj (fun p => key ((argsort key n).getD p 0)) hvmono
      (N := n - 1)
    rw [hval (n - 1) (by omega)]
    rw [h1]
    constructor
    · intro h i j hi hj hkey
      obtain ⟨p, hp, hxp⟩ := exists_argsort_getD key hi
      obtain ⟨q, hq, hxq⟩ := exists_argsort_getD key hj
      have h2 : key ((argsort key n).getD p 0) = key ((argsort key n).getD q 0) := by
        rw [hxp, hxq]
        exact hkey
      have h3 := h p q (by omega) (by omega) h2
      rw [← hxp, ← hxq, h3]
    · intro h p q hp hq hv'
      exact hinj p q (by omega) (by omega)
        (h _ _ (hxlt p (by omega)) (hxlt q (by omega)) hv')

end Pass

/-!
### Stable re-sorting and circular-prefix comparison transfer
-/

section Resort

theorem argsort_eq_on {K : Type} [LinearOrder K] {key₁ key₂ : Nat → K} {n : Nat}
    (h : ∀ i, i < n → key₁ i = key₂ i) : argsort key₁ n = argsort key₂ n := by
  refine argsort_congr ?_
  intro i j hi hj
  rw [h i hi, h j hj]
  exact ⟨Iff.rfl, Iff.rfl⟩

theorem range_map_getD (l : List Nat) :
    (List.range l.length).map (fun p => l.getD p 0) = l := by
  have h := map_eq_range_map id l 0
  simp only [List.map_id] at h
  exact h.symm

/-- Stable re-sort: reordering the stable argsort of `key₁` by a stable argsort
of a key `key₂` that refines `key₁` yields exactly the stable argsort of
`key₂`. -/
theorem argsort_resort {K₁ K₂ : Type} [LinearOrder K₁] [LinearOrder K₂]
    (key₁ : Nat → K₁) (key₂ : Nat → K₂) (n : Nat)
    (href : ∀ i j, i < n → j < n → key₂ i = key₂ j → key₁ i = key₁ j) :
    (argsort (fun j => key₂ ((argsort key₁ n).getD j 0)) n).map
        (fun j => (argsort key₁ n).getD j 0)
      = argsort key₂ n := by
  refine eq_argsort_of_sorted ?_ ?_
  · have h1 : ((argsort (fun j => key₂ ((argsort key₁ n).getD j 0)) n).map
        (fun j => (argsort key₁ n).getD j 0)).Perm
        ((List.range n).map (fun j => (argsort key₁ n).getD j 0)) :=
      (argsort_perm _ n).map _
    have h2 : (List.range n).map (fun j => (argsort key₁ n).getD j 0) = argsort key₁ n := by
      have h3 := range_map_getD (argsort key₁ n)
      rwa [argsort_length key₁ n] at h3
    rw [h2] at h1
    exact h1.trans (argsort_perm key₁ n)
  · refine List.pairwise_map.mpr ?_
    refine List.Pairwise.imp_of_mem ?_ (argsort_sorted (fun j => key₂ ((argsort key₁ n).getD j 0)) n)
    intro a b ha hb hab
    have ha' := (mem_argsort _ n).1 ha
    have hb' := (mem_argsort _ n).1 hb
    rcases hab with h1 | ⟨h2, h3⟩
    · exact Or.inl h1
    · refine Or.inr ⟨h2, ?_⟩
      rcases lt_or_eq_of_le h3 with h4 | h4
      · rcases argsort_rel key₁ (n := n) h4 hb' with h5 | h5
        · have h6 := href _ _ (argsort_getD_lt key₁ ha') (argsort_getD_lt key₁ hb') h2
          exact absurd h5 (h6 ▸ lt_irrefl _)
        · exact h5.2
      · subst h4
        exact le_refl _

theorem append_eq_append_iff_of_length {α : Type} {u w x y : List α}
    (h : u.length = w.length) : (u ++ x = w ++ y) ↔ (u = w ∧ x = y) := by
  constructor
  · intro he
    exact List.append_inj he h
  · rintro ⟨rfl, rfl⟩
    rfl

theorem cycPre_period_shift (s : List Char) (r i : Nat) :
    cycPre s r (i + s.length) = cycPre s r i := by
  rw [← cycPre_mod s r (i + s.length), Nat.add_mod_right, cycPre_mod]

theorem cycPre_lt_iff_of_ge (s : List Char) (hn : 0 < s.length) {m : Nat}
    (hm : s.length ≤ m) (i j : Nat) :
    (cycPre s m i < cycPre s m j ↔ cycPre s s.length i < cycPre s s.length j) := by
  have hsplit : ∀ x, cycPre s m x =
      cycPre s s.length x ++ cycPre s (m - s.length) (x + s.length) := by
    intro x
    rw [← cycPre_add]
    congr 1
    omega
  rw [hsplit i, hsplit j,
    append_lt_append_iff (u := cycPre s s.length i) (by rw [cycPre_length, cycPre_length])]
  constructor
  · rintro (h | ⟨he, hrest⟩)
    · exact h
    · have h2 : cycPre s (m - s.length) (i + s.length) =
          cycPre s (m - s.length) (j + s.length) := by
        rw [cycPre_period_shift, cycPre_period_shift]
        exact cycPre_of_period s hn he _
      rw [h2] at hrest
      exact absurd hrest (lt_irrefl _)
  · exact Or.inl

theorem cycPre_eq_iff_of_ge (s : List Char) (hn : 0 < s.length) {m : Nat}
    (hm : s.length ≤ m) (i j : Nat) :
    (cycPre s m i = cycPre s m j ↔ cycPre s s.length i = cycPre s s.length j) := by
  constructor
  · intro h
    have h2 := congrArg (List.take s.length) h
    rwa [cycPre_take s i hm, cycPre_take s j hm] at h2
  · intro h
    exact cycPre_of_period s hn h m

theorem cycPre_lt_iff_of_inj (s : List Char) (hn : 0 < s.length) {m : Nat}
    (hinj : ∀ p q, p < s.length → q < s.length → cycPre s m p = cycPre s m q → p = q)
    {i j : Nat} (hi : i < s.length) (hj : j < s.length) :
    (cycPre s m i < cycPre s m j ↔ cycPre s s.length i < cycPre s s.length j) := by
  rcases le_or_lt s.length m with hm | hm
  · exact cycPre_lt_iff_of_ge s hn hm i j
  · have hsplit : ∀ x, cycPre s s.length x =
        cycPre s m x ++ cycPre s (s.length - m) (x + m) := by
      intro x
      rw [← cycPre_add]
      congr 1
      omega
    constructor
    · intro h
      rw [hsplit i, hsplit j]
      exact append_lt_append_of_lt (by rw [cycPre_length, cycPre_length]) h
    · intro h
      rcases lt_trichotomy (cycPre s m i) (cycPre s m j) with h1 | h1 | h1
      · exact h1
      · have h2 := hinj i j hi hj h1
        subst h2
        exact absurd h (lt_irrefl _)
      · have h2 : cycPre s s.length j < cycPre s s.length i := by
          rw [hsplit i, hsplit j]
          exact append_lt_append_of_lt (by rw [cycPre_length, cycPre_length]) h1
        exact absurd h (asymm h2)

theorem cycPre_eq_iff_of_inj (s : List Char) (hn : 0 < s.length) {m : Nat}
    (hinj : ∀ p q, p < s.length → q < s.length → cycPre s m p = cycPre s m q → p = q)
    {i j : Nat} (hi : i < s.length) (hj : j < s.length) :
    (cycPre s m i = cycPre s m j ↔ cycPre s s.length i = cycPre s s.length j) := by
  constructor
  · intro h
    rw [hinj i j hi hj h]
  · intro h
    exact cycPre_of_period s hn h m

/-- The rank pair at doubling width `k` compares exactly like the circular
prefix of doubled width `k + k`. -/
theorem pairKey_iso (s : List Char) (hn : 0 < s.length) (k : Nat) (ranks : List Nat)
    (hlt : ∀ i j, i < s.length → j < s.length →
      (ranks.getD i 0 < ranks.getD j 0 ↔ cycPre s k i < cycPre s k j))
    (heq : ∀ i j, i < s.length → j < s.length →
      (ranks.getD i 0 = ranks.getD j 0 ↔ cycPre s k i = cycPre s k j))
    {i j : Nat} (hi : i < s.length) (hj : j < s.length) :
    (toLex (ranks.getD i 0, ranks.getD ((i + k) % s.length) 0) <
        toLex (ranks.getD j 0, ranks.getD ((j + k) % s.length) 0) ↔
      cycPre s (k + k) i < cycPre s (k + k) j) ∧
    (toLex (ranks.getD i 0, ranks.getD ((i + k) % s.length) 0) =
        toLex (ranks.getD j 0, ranks.getD ((j + k) % s.length) 0) ↔
      cycPre s (k + k) i = cycPre s (k + k) j) := by
  have hik : (i + k) % s.length < s.length := Nat.mod_lt _ hn
  have hjk : (j + k) % s.length < s.length := Nat.mod_lt _ hn
  have hsplit : ∀ x, cycPre s (k + k) x = cycPre s k x ++ cycPre s k (x + k) :=
    fun x => cycPre_add s k k x
  have hmodi : cycPre s k ((i + k) % s.length) = cycPre s k (i + k) := cycPre_mod s k (i + k)
  have hmodj : cycPre s k ((j + k) % s.length) = cycPre s k (j + k) := cycPre_mod s k (j + k)
  constructor
  · rw [Prod.Lex.lt_iff]
    rw [hsplit i, hsplit j,
      append_lt_append_iff (u := cycPre s k i) (by rw [cycPre_length, cycPre_length])]
    rw [hlt i j hi hj, heq i j hi hj]
    rw [← hmodi, ← hmodj, ← hlt _ _ hik hjk]
  · rw [toLex_inj, Prod.mk.injEq]
    rw [hsplit i, hsplit j,
      append_eq_append_iff_of_length (u := cycPre s k i) (by rw [cycPre_length, cycPre_length])]
    rw [heq i j hi hj]
    rw [← hmodi, ← hmodj, ← heq _ _ hik hjk]

end Resort

/-!
### The doubling loop sorts the rotations
-/

section MainLoop

theorem singleton_lt_iff {α : Type} [LinearOrder α] {a b : α} : ([a] < [b]) ↔ a < b := by
  rw [lt_cons_iff]
  constructor
  · rintro (h | ⟨_, h⟩)
    · exact h
    · exact absurd h (not_lt_nil _)
  · exact Or.inl

theorem cycPre_one (s : List Char) (i : Nat) :
    cycPre s 1 i = [s.getD (i % s.length) 'A'] := by
  unfold cycPre
  rw [show List.range 1 = [0] from rfl, List.map_cons, List.map_nil, Nat.add_zero]

/-- The single-character key used in the initial argsort compares exactly like
the circular prefix of width 1. -/
theorem charKey_iso (s : List Char) {i j : Nat} (hi : i < s.length) (hj : j < s.length) :
    ((s.getD i 'A' < s.getD j 'A' ↔ cycPre s 1 i < cycPre s 1 j) ∧
      (s.getD i 'A' = s.getD j 'A' ↔ cycPre s 1 i = cycPre s 1 j)) := by
  rw [cycPre_one, cycPre_one, Nat.mod_eq_of_lt hi, Nat.mod_eq_of_lt hj]
  refine ⟨(singleton_lt_iff).symm, ?_⟩
  constructor
  · intro h
    rw [h]
  · intro h
    simpa using h

/-- One round of the doubling loop re-sorts the suffix array into the stable
argsort of the doubled-width pair key. -/
theorem round_sa (s : List Char) (hn : 0 < s.length) (k : Nat) (ranks sa : List Nat)
    (hsa : sa = argsort (fun i => cycPre s k i) s.length)
    (heq : ∀ i j, i < s.length → j < s.length →
      (ranks.getD i 0 = ranks.getD j 0 ↔ cycPre s k i = cycPre s k j))
    (hlt : ∀ i j, i < s.length → j < s.length →
      (ranks.getD i 0 < ranks.getD j 0 ↔ cycPre s k i < cycPre s k j)) :
    (argsort
        (fun j => ((sa.map (fun i => toLex (ranks.getD i 0, ranks.getD ((i + k) % s.length) 0))).getD
          j (toLex (0, 0))))
        ((sa.map (fun i => toLex (ranks.getD i 0, ranks.getD ((i + k) % s.length) 0))).length)).map
        (fun j => sa.getD j 0)
      = argsort (fun i => toLex (ranks.getD i 0, ranks.getD ((i + k) % s.length) 0)) s.length := by
  have hsal : sa.length = s.length := by
    rw [hsa, argsort_length]
  have hml : (sa.map (fun i => toLex (ranks.getD i 0, ranks.getD ((i + k) % s.length) 0))).length
      = s.length := by
    rw [List.length_map, hsal]
  rw [hml]
  have hagree : ∀ j, j < s.length →
      (sa.map (fun i => toLex (ranks.getD i 0, ranks.getD ((i + k) % s.length) 0))).getD
          j (toLex (0, 0))
        = toLex (ranks.getD (sa.getD j 0) 0, ranks.getD ((sa.getD j 0 + k) % s.length) 0) := by
    intro j hj
    exact getD_map _ sa (by omega) _ 0
  rw [argsort_eq_on hagree]
  rw [hsa]
  refine argsort_resort (fun i => cycPre s k i)
    (fun i => toLex (ranks.getD i 0, ranks.getD ((i + k) % s.length) 0)) s.length ?_
  intro i j hi hj he
  have h2 := (pairKey_iso s hn k ranks hlt heq hi hj).2.mp he
  have h3 := congrArg (List.take k) h2
  rwa [cycPre_take s i (by omega), cycPre_take s j (by omega)] at h3

/-- The pair-key argsort is the circular-prefix argsort of doubled width. -/
theorem round_sa_cyc (s : List Char) (hn : 0 < s.length) (k : Nat) (ranks : List Nat)
    (heq : ∀ i j, i < s.length → j < s.length →
      (ranks.getD i 0 = ranks.getD j 0 ↔ cycPre s k i = cycPre s k j))
    (hlt : ∀ i j, i < s.length → j < s.length →
      (ranks.getD i 0 < ranks.getD j 0 ↔ cycPre s k i < cycPre s k j)) :
    argsort (fun i => toLex (ranks.getD i 0, ranks.getD ((i + k) % s.length) 0)) s.length
      = argsort (fun i => cycPre s (k + k) i) s.length := by
  refine argsort_congr ?_
  intro i j hi hj
  exact ⟨(pairKey_iso s hn k ranks hlt heq hi hj).1, (pairKey_iso s hn k ranks hlt heq hi hj).2⟩

/-- `calculate_ranks`, applied after the re-sort, performs exactly the ranking
pass for the pair key. -/
theorem round_ranks (s : List Char) (_hn : 0 < s.length) (k : Nat) (ranks sa' : List Nat)
    (hrl : ranks.length = s.length)
    (hsa' : sa' = argsort
      (fun i => toLex (ranks.getD i 0, ranks.getD ((i + k) % s.length) 0)) s.length) :
    calculate_ranks sa' k ranks =
      passRanks (fun i => toLex (ranks.getD i 0, ranks.getD ((i + k) % s.length) 0))
        s.length := by
  have hsal : sa'.length = s.length := by rw [hsa', argsort_length]
  unfold calculate_ranks
  simp only [hrl]
  rw [List.length_map, hsal]
  have hagree : ∀ j, j < s.length →
      ((sa'.map (fun i => toLex (ranks.getD i 0, ranks.getD ((i + k) % s.length) 0))).getD
          j (toLex (0, 0)))
        = toLex (ranks.getD (sa'.getD j 0) 0, ranks.getD ((sa'.getD j 0 + k) % s.length) 0) := by
    intro j hj
    exact getD_map _ sa' (by omega) _ 0
  rw [argsort_eq_on hagree]
  have hget : ∀ p, sa'.getD p 0 =
      (argsort (fun i => toLex (ranks.getD i 0, ranks.getD ((i + k) % s.length) 0))
        s.length).getD p 0 := by
    intro p
    rw [hsa']
  have hmono : ∀ i j, i ≤ j → j < s.length →
      toLex (ranks.getD (sa'.getD i 0) 0, ranks.getD ((sa'.getD i 0 + k) % s.length) 0) ≤
        toLex (ranks.getD (sa'.getD j 0) 0, ranks.getD ((sa'.getD j 0 + k) % s.length) 0) := by
    intro i j hij hj
    rcases lt_or_eq_of_le hij with h | h
    · rw [hget i, hget j]
      rcases argsort_rel
          (fun i => toLex (ranks.getD i 0, ranks.getD ((i + k) % s.length) 0))
          (n := s.length) h hj with h1 | h1
      · exact le_of_lt h1
      · exact le_of_eq h1.1
    · subst h
      exact le_refl _
  rw [argsort_eq_range hmono]
  have hlist : (List.range s.length).map
        (fun j => (sa'.getD j 0,
          (sa'.map (fun i =>
            toLex (ranks.getD i 0, ranks.getD ((i + k) % s.length) 0))).getD j (toLex (0, 0))))
      = (List.range s.length).map
        (fun p => ((argsort
              (fun i => toLex (ranks.getD i 0, ranks.getD ((i + k) % s.length) 0))
              s.length).getD p 0,
          (fun i => toLex (ranks.getD i 0, ranks.getD ((i + k) % s.length) 0))
            ((argsort
              (fun i => toLex (ranks.getD i 0, ranks.getD ((i + k) % s.length) 0))
              s.length).getD p 0))) := by
    refine List.map_congr_left ?_
    intro j hj
    have hj' := List.mem_range.1 hj
    rw [hagree j hj', hget j]
  rw [hlist]
  rfl

/-- The main loop theorem: started on a state that order-represents circular
prefixes of width `k`, the doubling loop returns the stable argsort of the full
rotations, provided the fuel bound `n ≤ k * 2 ^ fuel` holds (as it does for
the call with `k = 1` and fuel `n`). -/
theorem saLoop_spec (s : List Char) (fuel : Nat) :
    ∀ (k : Nat) (sa ranks : List Nat),
      0 < s.length → 0 < k → s.length ≤ k * 2 ^ fuel →
      sa = argsort (fun i => cycPre s k i) s.length →
      ranks.length = s.length →
      (∀ i j, i < s.length → j < s.length →
        (ranks.getD i 0 < ranks.getD j 0 ↔ cycPre s k i < cycPre s k j)) →
      (∀ i j, i < s.length → j < s.length →
        (ranks.getD i 0 = ranks.getD j 0 ↔ cycPre s k i = cycPre s k j)) →
      saLoop s.length sa ranks k fuel = argsort (fun i => cycPre s s.length i) s.length := by
  induction fuel with
  | zero =>
    intro k sa ranks hn hk hfuel hsa hrl hlt heq
    have hkn : s.length ≤ k := by
      rw [pow_zero, Nat.mul_one] at hfuel
      exact hfuel
    rw [show saLoop s.length sa ranks k 0 = sa from rfl, hsa]
    refine argsort_congr ?_
    intro i j hi hj
    exact ⟨cycPre_lt_iff_of_ge s hn hkn i j, cycPre_eq_iff_of_ge s hn hkn i j⟩
  | succ fuel ih =>
    intro k sa ranks hn hk hfuel hsa hrl hlt heq
    rw [saLoop]
    by_cases hcond : k < s.length
    · rw [if_pos hcond]
      dsimp only
      have hA := round_sa s hn k ranks sa hsa heq hlt
      have hA2 := round_sa_cyc s hn k ranks heq hlt
      rw [hA]
      have hB := round_ranks s hn k ranks _ hrl rfl
      rw [hB]
      have hspec := passRanks_spec
        (fun i => toLex (ranks.getD i 0, ranks.getD ((i + k) % s.length) 0)) s.length hn
      rw [argsort_length]
      by_cases hexit : (passRanks
          (fun i => toLex (ranks.getD i 0, ranks.getD ((i + k) % s.length) 0))
          s.length).getD
          ((argsort (fun i => toLex (ranks.getD i 0, ranks.getD ((i + k) % s.length) 0))
            s.length).getD (s.length - 1) 0) 0 = s.length - 1
      · rw [if_pos hexit]
        have hkeyinj := hspec.2.2.2.mp hexit
        have hcycinj : ∀ p q, p < s.length → q < s.length →
            cycPre s (k + k) p = cycPre s (k + k) q → p = q := by
          intro p q hp hq hc
          refine hkeyinj p q hp hq ?_
          exact (pairKey_iso s hn k ranks hlt heq hp hq).2.mpr hc
        rw [hA2]
        refine argsort_congr ?_
        intro i j hi hj
        exact ⟨cycPre_lt_iff_of_inj s hn hcycinj hi hj, cycPre_eq_iff_of_inj s hn hcycinj hi hj⟩
      · rw [if_neg hexit]
        refine ih (2 * k) _ _ hn (by omega) ?_ ?_ ?_ ?_ ?_
        · have h2 : k * 2 ^ (fuel + 1) = 2 * k * 2 ^ fuel := by ring
          rw [h2] at hfuel
          exact hfuel
        · have h2 : 2 * k = k + k := by omega
          rw [hA2, h2]
        · exact hspec.1
        · intro i j hi hj
          rw [hspec.2.1 i j hi hj]
          have h2 : 2 * k = k + k := by omega
          rw [h2]
          exact (pairKey_iso s hn k ranks hlt heq hi hj).1
        · intro i j hi hj
          rw [hspec.2.2.1 i j hi hj]
          have h2 : 2 * k = k + k := by omega
          rw [h2]
          exact (pairKey_iso s hn k ranks hlt heq hi hj).2
    · rw [if_neg hcond]
      have hkn : s.length ≤ k := by omega
      rw [hsa]
      refine argsort_congr ?_
      intro i j hi hj
      exact ⟨cycPre_lt_iff_of_ge s hn hkn i j, cycPre_eq_iff_of_ge s hn hkn i j⟩

/-- A rotation start offset inside the sequence: the rotation is the circular
prefix of one full period. -/
theorem rot_eq_cycPre (s : List Char) {i : Nat} (hi : i < s.length) :
    rot s i = cycPre s s.length i := by
  unfold rot
  refine List.ext_getElem ?_ ?_
  · rw [List.length_append, List.length_drop, List.length_take, cycPre_length]
    omega
  · intro t h1 h2
    have hlen : t < s.length := by
      rw [cycPre_length] at h2
      exact h2
    rw [cycPre_getElem]
    rcases Nat.lt_or_ge t (s.length - i) with ht | ht
    · have hmod : (i + t) % s.length = i + t := Nat.mod_eq_of_lt (by omega)
      rw [hmod, List.getD_eq_getElem _ _ (by omega)]
      rw [List.getElem_append_left (by rw [List.length_drop]; omega)]
      rw [List.getElem_drop]
    · have hmod : (i + t) % s.length = t - (s.length - i) := by
        have h3 : (i + t) % s.length = (i + t - s.length) % s.length :=
          Nat.mod_eq_sub_mod (by omega)
        rw [h3, Nat.mod_eq_of_lt (by omega)]
        omega
      rw [hmod, List.getD_eq_getElem _ _ (by omega)]
      rw [List.getElem_append_right (by rw [List.length_drop]; omega)]
      rw [List.getElem_take]
      simp only [List.length_drop]

/-- `build_suffix_array` computes the stable argsort of the circular
rotations. -/
theorem build_suffix_array_eq (s : List Char) :
    build_suffix_array s = argsort (fun i => cycPre s s.length i) s.length := by
  rcases Nat.eq_zero_or_pos s.length with hn | hn
  · have hs : s = [] := List.length_eq_zero.mp hn
    subst hs
    rfl
  · unfold build_suffix_array
    dsimp only
    have hbridge : rankPass ((argsort (fun i => s.getD i 'A') s.length).map
          (fun i => (i, s.getD i 'A'))) (List.replicate s.length 0)
        = passRanks (fun i => s.getD i 'A') s.length := by
      unfold passRanks
      congr 1
      rw [map_eq_range_map (fun i => (i, s.getD i 'A'))
        (argsort (fun i => s.getD i 'A') s.length) 0]
      rw [argsort_length]
    rw [hbridge]
    have hspec := passRanks_spec (fun i => s.getD i 'A') s.length hn
    refine saLoop_spec s s.length 1 _ _ hn (by omega) ?_ ?_ hspec.1 ?_ ?_
    · rw [Nat.one_mul]
      exact le_of_lt (Nat.lt_two_pow s.length)
    · exact argsort_congr (fun i j hi hj => charKey_iso s hi hj)
    · intro i j hi hj
      rw [hspec.2.1 i j hi hj]
      exact (charKey_iso s hi hj).1
    · intro i j hi hj
      rw [hspec.2.2.1 i j hi hj]
      exact (charKey_iso s hi hj).2

/-- `build_suffix_array` equals the reference full lexicographic sort of
rotation start offsets with ties broken by original index. -/
theorem build_suffix_array_eq_refRotationSort (s : List Char) :
    build_suffix_array s = refRotationSort s := by
  rw [build_suffix_array_eq]
  unfold refRotationSort
  rcases Nat.eq_zero_or_pos s.length with hn | hn
  · rw [hn]
    rfl
  · refine argsort_congr ?_
    intro i j hi hj
    rw [rot_eq_cycPre s hi, rot_eq_cycPre s hj]
    exact ⟨Iff.rfl, Iff.rfl⟩

end MainLoop

/-!
### Positions in the argsort: the row of a suffix
-/

section ArgsortCount

variable {K : Type} [LinearOrder K]

theorem indexOf_argsort_spec (key : Nat → K) {n x : Nat} (hx : x < n) :
    (argsort key n).indexOf x < n ∧
      (argsort key n).getD ((argsort key n).indexOf x) 0 = x := by
  have hmem : x ∈ argsort key n := (mem_argsort key n).mpr hx
  have hlt : (argsort key n).indexOf x < (argsort key n).length :=
    List.indexOf_lt_length.mpr hmem
  constructor
  · have hlen := argsort_length key n
    omega
  · rw [List.getD_eq_getElem _ _ hlt]
    exact List.getElem_indexOf hlt

theorem indexOf_argsort_getD (key : Nat → K) {n p : Nat} (hp : p < n) :
    (argsort key n).indexOf ((argsort key n).getD p 0) = p := by
  have hp' : p < (argsort key n).length := by
    rw [argsort_length]
    exact hp
  rw [List.getD_eq_getElem _ _ hp']
  exact List.indexOf_getElem (argsort_nodup key n) p hp'

theorem indexOf_argsort_lt_iff (key : Nat → K) {n : Nat}
    (hinj : ∀ p q, p < n → q < n → key p = key q → p = q)
    {a b : Nat} (ha : a < n) (hb : b < n) :
    (argsort key n).indexOf a < (argsort key n).indexOf b ↔ key a < key b := by
  obtain ⟨hra, hga⟩ := indexOf_argsort_spec key ha
  obtain ⟨hrb, hgb⟩ := indexOf_argsort_spec key hb
  constructor
  · intro h
    rcases argsort_rel key (n := n) h hrb with h1 | h1
    · rwa [hga, hgb] at h1
    · rw [hga, hgb] at h1
      have h2 := hinj a b ha hb h1.1
      subst h2
      omega
  · intro h
    have hab : a ≠ b := by
      intro he
      subst he
      exact absurd h (lt_irrefl _)
    have hne : (argsort key n).indexOf a ≠ (argsort key n).indexOf b := by
      intro he
      rw [← hga, ← hgb, he] at hab
      exact hab rfl
    rcases Nat.lt_or_ge ((argsort key n).indexOf a) ((argsort key n).indexOf b) with h1 | h1
    · exact h1
    · have h2 : (argsort key n).indexOf b < (argsort key n).indexOf a := by omega
      rcases argsort_rel key (n := n) h2 hra with h3 | h3
      · rw [hga, hgb] at h3
        exact absurd h (asymm h3)
      · rw [hga, hgb] at h3
        have h4 := hinj b a hb ha h3.1
        subst h4
        exact absurd h (lt_irrefl _)

/-- In the argsort of an injective key, the position of `x` is the number of
indices with strictly smaller key. -/
theorem indexOf_argsort_eq_countP (key : Nat → K) {n : Nat}
    (hinj : ∀ p q, p < n → q < n → key p = key q → p = q) {x : Nat} (hx : x < n) :
    (argsort key n).indexOf x
      = (List.range n).countP (fun y => decide (key y < key x)) := by
  obtain ⟨hrlt, hrget⟩ := indexOf_argsort_spec key hx
  have hr' : (argsort key n).indexOf x < (argsort key n).length := by
    rw [argsort_length]
    exact hrlt
  have hsplit : argsort key n =
      (argsort key n).take ((argsort key n).indexOf x) ++
        (argsort key n)[(argsort key n).indexOf x] ::
          (argsort key n).drop ((argsort key n).indexOf x + 1) := by
    conv_lhs => rw [← List.take_append_drop ((argsort key n).indexOf x) (argsort key n),
      List.drop_eq_getElem_cons hr']
  have hgetx : (argsort key n)[(argsort key n).indexOf x] = x := by
    rw [← List.getD_eq_getElem _ 0 hr']
    exact hrget
  have hcount : (argsort key n).countP (fun y => decide (key y < key x))
      = (argsort key n).indexOf x := by
    conv_lhs => rw [hsplit]
    rw [List.countP_append, List.countP_cons]
    have h1 : ((argsort key n).take ((argsort key n).indexOf x)).countP
        (fun y => decide (key y < key x))
        = ((argsort key n).take ((argsort key n).indexOf x)).length := by
      rw [List.countP_eq_length]
      intro a hmem
      obtain ⟨p, hp, hpa⟩ := List.mem_iff_getElem.mp hmem
      have hp2 : p < (argsort key n).indexOf x := by
        have := hp
        rw [List.length_take] at this
        omega
      rw [List.getElem_take] at hpa
      have hrel := argsort_rel key (n := n) hp2 hrlt
      rw [List.getD_eq_getElem _ 0 (by omega), List.getD_eq_getElem _ 0 hr'] at hrel
      rw [hpa, hgetx] at hrel
      rcases hrel with h2 | h2
      · simpa using h2
      · exfalso
        have h3 : a = x := hinj a x
          (by
            rw [← hpa]
            exact (mem_argsort key n).1 (List.getElem_mem (by omega)))
          hx h2.1
        subst h3
        have h4 : (argsort key n).indexOf a ≤ p := by
          rw [← hpa]
          have hnd := argsort_nodup key n
          rw [List.indexOf_getElem hnd p (by omega)]
        omega
    have h2 : ((argsort key n).drop ((argsort key n).indexOf x + 1)).countP
        (fun y => decide (key y < key x)) = 0 := by
      rw [List.countP_eq_zero]
      intro a hmem
      obtain ⟨p, hp, hpa⟩ := List.mem_iff_getElem.mp hmem
      rw [List.getElem_drop] at hpa
      have hp2 : (argsort key n).indexOf x + 1 + p < (argsort key n).length := by
        rw [List.length_drop] at hp
        omega
      have hrel := argsort_rel key (n := n)
        (show (argsort key n).indexOf x < (argsort key n).indexOf x + 1 + p by omega)
        (by have := argsort_length key n; omega)
      rw [List.getD_eq_getElem _ 0 hr', List.getD_eq_getElem _ 0 hp2] at hrel
      rw [hpa, hgetx] at hrel
      rcases hrel with h3 | h3
      · simp only [decide_eq_true_eq]
        exact asymm h3
      · have h4 : x = a := hinj x a hx
          (by
            rw [← hpa]
            exact (mem_argsort key n).1 (List.getElem_mem hp2))
          h3.1
        subst h4
        have hnd := argsort_nodup key n
        have h5 := @List.Nodup.getElem_inj_iff _ _ hnd _ hr' _ hp2
        rw [hgetx, hpa] at h5
        have h6 := h5.mp rfl
        omega
    rw [h1, h2, hgetx]
    have hfalse : (decide (key x < key x)) = false := by simp
    rw [hfalse]
    simp only [Bool.false_eq_true, if_false]
    rw [List.length_take]
    have hlen := argsort_length key n
    omega
  rw [← hcount]
  exact List.Perm.countP_eq _ (argsort_perm key n)

end ArgsortCount

/-!
### Counting utilities for the last-to-first correspondence
-/

section CountUtil

/-- In a sorted list, the index of the first occurrence of a present element is
the number of strictly smaller entries. -/
theorem sorted_indexOf_countP :
    ∀ {l : List Char}, List.Sorted (fun a b : Char => a ≤ b) l →
      ∀ {c : Char}, c ∈ l → l.indexOf c = l.countP (fun a => decide (a < c))
  | [], _, _, hc => absurd hc (List.not_mem_nil _)
  | a :: l, hs, c, hc => by
    obtain ⟨hhead, htail⟩ := List.sorted_cons.mp hs
    rw [List.indexOf_cons, List.countP_cons]
    by_cases hac : a = c
    · subst hac
      have h1 : (a == a) = true := by simp
      rw [h1]
      have h2 : l.countP (fun b => decide (b < a)) = 0 := by
        rw [List.countP_eq_zero]
        intro b hb
        simp only [decide_eq_true_eq]
        exact not_lt_of_ge (hhead b hb)
      rw [h2]
      simp
    · have h1 : (a == c) = false := by
        simp only [beq_eq_false_iff_ne, ne_eq]
        exact hac
      rw [h1]
      have hcl : c ∈ l := by
        rcases List.mem_cons.mp hc with h | h
        · exact absurd h.symm hac
        · exact h
      have hlt : a < c := lt_of_le_of_ne (hhead c hcl) hac
      rw [sorted_indexOf_countP htail hcl]
      simp [hlt]

theorem countP_disjoint_or {α : Type} (A B : α → Prop) [DecidablePred A] [DecidablePred B]
    (hd : ∀ a, ¬(A a ∧ B a)) :
    ∀ (l : List α),
      l.countP (fun a => decide (A a ∨ B a)) =
        l.countP (fun a => decide (A a)) + l.countP (fun a => decide (B a))
  | [] => rfl
  | x :: l => by
    rw [List.countP_cons, List.countP_cons, List.countP_cons,
      countP_disjoint_or A B hd l]
    by_cases hA : A x
    · have hB : ¬B x := fun h => hd x ⟨hA, h⟩
      simp [hA, hB]
      omega
    · by_cases hB : B x
      · simp [hA, hB]
        omega
      · simp [hA, hB]

/-- Reindexing a count over `0..n-1` along a bijection of `0..n-1`. -/
theorem countP_reindex (g : Nat → Nat) (n : Nat)
    (hmem : ∀ x, x < n → g x < n)
    (hinj : ∀ x y, x < n → y < n → g x = g y → x = y)
    (hsurj : ∀ z, z < n → ∃ x, x < n ∧ g x = z) (p : Nat → Bool) :
    (List.range n).countP p = (List.range n).countP (fun x => p (g x)) := by
  have hnodup : ((List.range n).map g).Nodup := by
    refine List.Nodup.map_on ?_ (List.nodup_range n)
    intro x hx y hy he
    exact hinj x y (List.mem_range.1 hx) (List.mem_range.1 hy) he
  have hperm : ((List.range n).map g).Perm (List.range n) := by
    refine List.perm_of_nodup_nodup_toFinset_eq hnodup (List.nodup_range n) ?_
    refine Finset.ext_iff.mpr ?_
    intro z
    rw [List.mem_toFinset, List.mem_toFinset, List.mem_map, List.mem_range]
    constructor
    · rintro ⟨x, hx, rfl⟩
      exact hmem x (List.mem_range.1 hx)
    · intro hz
      obtain ⟨x, hx, hgx⟩ := hsurj z hz
      exact ⟨x, List.mem_range.mpr hx, hgx⟩
  calc (List.range n).countP p
      = ((List.range n).map g).countP p := (List.Perm.countP_eq p hperm).symm
    _ = (List.range n).countP (fun x => p (g x)) := List.countP_map p g (List.range n)

/-- The count of `c` in a prefix, as a count over positions. -/
theorem count_take_eq_countP_range (L : List Char) (c : Char) {r : Nat} (hr : r ≤ L.length) :
    (List.range L.length).countP (fun p => decide (L.getD p 'A' = c ∧ p < r))
      = (L.take r).count c := by
  have hsplit : List.range L.length
      = List.range r ++ (List.range (L.length - r)).map (fun x => r + x) := by
    have h0 := List.range_add r (L.length - r)
    rw [show r + (L.length - r) = L.length from by omega] at h0
    exact h0
  rw [hsplit, List.countP_append]
  have h2 : ((List.range (L.length - r)).map (fun x => r + x)).countP
      (fun p => decide (L.getD p 'A' = c ∧ p < r)) = 0 := by
    rw [List.countP_eq_zero]
    intro a ha
    obtain ⟨x, _, rfl⟩ := List.mem_map.1 ha
    simp only [decide_eq_true_eq, not_and]
    intro _
    omega
  have h3 : (List.range r).countP (fun p => decide (L.getD p 'A' = c ∧ p < r))
      = (List.range r).countP (fun p => decide (L.getD p 'A' = c)) := by
    refine List.countP_congr ?_
    intro p hp
    have hp' := List.mem_range.1 hp
    simp only [decide_eq_true_eq]
    constructor
    · intro h
      exact h.1
    · intro h
      exact ⟨h, hp'⟩
  have h4 : L.take r = (List.range r).map (fun p => L.getD p 'A') := by
    refine List.ext_getElem ?_ ?_
    · rw [List.length_take, List.length_map, List.length_range]
      omega
    · intro i h1' h2'
      rw [List.getElem_take, List.getElem_map, List.getElem_range,
        List.getD_eq_getElem _ _ (by rw [List.length_take] at h1'; omega)]
  rw [h2, h3, h4, List.count_eq_countP, List.countP_map, Nat.add_zero]
  refine List.countP_congr ?_
  intro p _
  simp only [Function.comp_apply, beq_iff_eq, decide_eq_true_eq]

end CountUtil

/-!
### Closed form of the last-to-first traversal
-/

section LFMap

theorem lfLoop_length (first : Char → Nat) :
    ∀ (l : List Char) (counts : Char → Nat), (lfLoop first l counts).length = l.length
  | [], _ => rfl
  | c :: rest, counts => by
    rw [lfLoop, List.length_cons, List.length_cons, lfLoop_length first rest _]

theorem lfLoop_getD (first : Char → Nat) :
    ∀ (l : List Char) (counts : Char → Nat) (i : Nat), i < l.length →
      (lfLoop first l counts).getD i 0 =
        first (l.getD i 'A') + counts (l.getD i 'A') + (l.take i).count (l.getD i 'A')
  | [], _, i, hi => by simp at hi
  | c :: rest, counts, 0, _ => by
    rw [lfLoop, List.getD_cons_zero, List.getD_cons_zero, List.take_zero, List.count_nil]
    omega
  | c :: rest, counts, i + 1, hi => by
    rw [lfLoop, List.getD_cons_succ, List.getD_cons_succ, List.take_succ_cons,
      List.count_cons]
    rw [lfLoop_getD first rest _ i (by simpa using Nat.lt_of_succ_lt_succ hi)]
    by_cases hc : rest.getD i 'A' = c
    · have hb : (c == rest.getD i 'A') = true := beq_iff_eq.mpr hc.symm
      rw [if_pos hc, hb, if_pos rfl]
      omega
    · have hb : (c == rest.getD i 'A') = false := beq_eq_false_iff_ne.mpr (fun h => hc h.symm)
      rw [if_neg hc, hb]
      simp

theorem map_last_to_first_length (bwt : List Char) :
    (map_last_to_first bwt).length = bwt.length := by
  unfold map_last_to_first
  dsimp only
  rw [lfLoop_length]

/-- The traversal computes, at each position, the index of the first occurrence
of its character in the sorted column plus the number of earlier occurrences of
that character. -/
theorem map_last_to_first_getD (bwt : List Char) {r : Nat} (hr : r < bwt.length) :
    (map_last_to_first bwt).getD r 0 =
      (List.insertionSort (fun a b => a ≤ b) bwt).indexOf (bwt.getD r 'A')
        + (bwt.take r).count (bwt.getD r 'A') := by
  unfold map_last_to_first
  dsimp only
  rw [lfLoop_getD _ _ _ _ hr]
  simp

end LFMap

/-!
### Rotation structure of a sentinel-terminated sequence
-/

/-- Python's `(x - 1) % n` on `0 ≤ x < n`: the circular predecessor index. -/
def predIdx (n x : Nat) : Nat := (x + n - 1) % n

section RotStructure

theorem predIdx_lt {n : Nat} (hn : 0 < n) (x : Nat) : predIdx n x < n :=
  Nat.mod_lt _ hn

theorem predIdx_zero {n : Nat} (hn : 0 < n) : predIdx n 0 = n - 1 := by
  unfold predIdx
  rw [Nat.zero_add, Nat.mod_eq_of_lt (by omega)]

theorem predIdx_of_pos {n x : Nat} (hx1 : 1 ≤ x) (hx : x < n) : predIdx n x = x - 1 := by
  unfold predIdx
  rw [Nat.mod_eq_sub_mod (by omega), Nat.mod_eq_of_lt (by omega)]
  omega

theorem predIdx_inj {n x y : Nat} (hn : 0 < n) (hx : x < n) (hy : y < n)
    (h : predIdx n x = predIdx n y) : x = y := by
  rcases Nat.eq_zero_or_pos x with hx0 | hx0 <;> rcases Nat.eq_zero_or_pos y with hy0 | hy0
  · omega
  · subst hx0
    rw [predIdx_zero hn, predIdx_of_pos hy0 hy] at h
    omega
  · subst hy0
    rw [predIdx_zero hn, predIdx_of_pos hx0 hx] at h
    omega
  · rw [predIdx_of_pos hx0 hx, predIdx_of_pos hy0 hy] at h
    omega

theorem predIdx_eq_last_iff {n x : Nat} (hn : 0 < n) (hx : x < n) :
    predIdx n x = n - 1 ↔ x = 0 := by
  constructor
  · intro h
    rcases Nat.eq_zero_or_pos x with hx0 | hx0
    · exact hx0
    · rw [predIdx_of_pos hx0 hx] at h
      omega
  · intro h
    subst h
    exact predIdx_zero hn

theorem predIdx_surj {n : Nat} (hn : 0 < n) {z : Nat} (hz : z < n) :
    ∃ x, x < n ∧ predIdx n x = z := by
  rcases Nat.lt_or_ge z (n - 1) with h | h
  · exact ⟨z + 1, by omega, predIdx_of_pos (by omega) (by omega)⟩
  · have hz' : z = n - 1 := by omega
    subst hz'
    exact ⟨0, hn, predIdx_zero hn⟩

/-- The sentinel occurrence pins every rotation: rotations of a
single-sentinel sequence are pairwise distinct. -/
theorem rot_inj_of_sentinel (t : List Char) (hn : 0 < t.length)
    (hsent : ∀ y, y < t.length → (t.getD y 'A' = '$' ↔ y = t.length - 1)) :
    ∀ i j, i < t.length → j < t.length →
      cycPre t t.length i = cycPre t t.length j → i = j := by
  intro i j hi hj he
  rw [cycPre_eq_iff] at he
  have h1 := he (t.length - 1 - i) (by omega)
  have h2 : (i + (t.length - 1 - i)) % t.length = t.length - 1 := by
    rw [Nat.mod_eq_of_lt (by omega)]
    omega
  rw [h2] at h1
  have h3 : t.getD ((j + (t.length - 1 - i)) % t.length) 'A' = '$' := by
    rw [← h1]
    exact (hsent _ (by omega)).mpr rfl
  have h4 := (hsent _ (Nat.mod_lt _ hn)).mp h3
  rcases Nat.lt_or_ge (j + (t.length - 1 - i)) t.length with h5 | h5
  · rw [Nat.mod_eq_of_lt h5] at h4
    omega
  · rw [Nat.mod_eq_sub_mod h5, Nat.mod_eq_of_lt (by omega)] at h4
    omega

theorem cycPre_cons (t : List Char) {m : Nat} (x : Nat) (hm : 0 < m) :
    cycPre t m x = t.getD (x % t.length) 'A' :: cycPre t (m - 1) (x + 1) := by
  have h1 := cycPre_add t 1 (m - 1) x
  rw [show 1 + (m - 1) = m from by omega] at h1
  rw [h1, cycPre_one]
  rfl

/-- Rotation at the circular predecessor: its head is the predecessor
character, its tail the first `n - 1` characters of the original rotation. -/
theorem cycPre_pred_eq_cons (t : List Char) (hn : 0 < t.length) {x : Nat}
    (hx : x < t.length) :
    cycPre t t.length (predIdx t.length x) =
      t.getD (predIdx t.length x) 'A' :: cycPre t (t.length - 1) x := by
  rw [cycPre_cons t _ hn]
  congr 1
  · rw [Nat.mod_eq_of_lt (predIdx_lt hn x)]
  · have h1 : (predIdx t.length x + 1) % t.length = x := by
      unfold predIdx
      rw [Nat.mod_add_mod]
      rw [show x + t.length - 1 + 1 = x + t.length from by omega, Nat.add_mod_right,
        Nat.mod_eq_of_lt hx]
    calc cycPre t (t.length - 1) (predIdx t.length x + 1)
        = cycPre t (t.length - 1) ((predIdx t.length x + 1) % t.length) :=
          (cycPre_mod t _ _).symm
      _ = cycPre t (t.length - 1) x := by rw [h1]

/-- Rotation split from the right: full rotation = first `n - 1` characters
followed by the predecessor character. -/
theorem cycPre_eq_append_pred (t : List Char) (hn : 0 < t.length) (x : Nat) :
    cycPre t t.length x =
      cycPre t (t.length - 1) x ++ [t.getD (predIdx t.length x) 'A'] := by
  have h1 := cycPre_add t (t.length - 1) 1 x
  rw [show t.length - 1 + 1 = t.length from by omega] at h1
  rw [h1, cycPre_one]
  rw [show x + (t.length - 1) = x + t.length - 1 from by omega]
  rfl

/-- Comparison of predecessor rotations: first the predecessor characters,
then (on a tie) the original rotations. -/
theorem rotPred_lt_iff (t : List Char) (hn : 0 < t.length) {x y : Nat}
    (hx : x < t.length) (hy : y < t.length) :
    (cycPre t t.length (predIdx t.length y) < cycPre t t.length (predIdx t.length x) ↔
      (t.getD (predIdx t.length y) 'A' < t.getD (predIdx t.length x) 'A' ∨
        (t.getD (predIdx t.length y) 'A' = t.getD (predIdx t.length x) 'A' ∧
          cycPre t t.length y < cycPre t t.length x))) := by
  rw [cycPre_pred_eq_cons t hn hy, cycPre_pred_eq_cons t hn hx, lt_cons_iff]
  refine or_congr Iff.rfl (and_congr_right ?_)
  intro hab
  rw [cycPre_eq_append_pred t hn y, cycPre_eq_append_pred t hn x]
  rw [append_lt_append_iff (by rw [cycPre_length, cycPre_length])]
  constructor
  · exact Or.inl
  · rintro (h | ⟨he, hlast⟩)
    · exact h
    · rw [singleton_lt_iff] at hlast
      rw [hab] at hlast
      exact absurd hlast (lt_irrefl _)

/-- Heads of ordered rotations are ordered. -/
theorem head_le_of_cycPre_le (t : List Char) (hn : 0 < t.length) {a b : Nat}
    (ha : a < t.length) (hb : b < t.length)
    (h : cycPre t t.length a < cycPre t t.length b ∨
      cycPre t t.length a = cycPre t t.length b) :
    t.getD a 'A' ≤ t.getD b 'A' := by
  rw [cycPre_cons t a hn, cycPre_cons t b hn, Nat.mod_eq_of_lt ha, Nat.mod_eq_of_lt hb] at h
  rcases h with h | h
  · rw [lt_cons_iff] at h
    rcases h with h | h
    · exact le_of_lt h
    · exact le_of_eq h.1
  · rw [List.cons.injEq] at h
    exact le_of_eq h.1

end RotStructure

/-!
### The last and first columns of the sorted rotation matrix
-/

/-- The first column: heads of the rotations in sorted order. -/
def firstCol (t : List Char) : List Char :=
  (build_suffix_array t).map (fun i => t.getD i 'A')

/-- The last column: the character circularly preceding each rotation in
sorted order.  `burrows_wheeler_conversion` computes exactly this. -/
def lastCol (t : List Char) : List Char :=
  (build_suffix_array t).map (fun i => t.getD (predIdx t.length i) 'A')

section Columns

theorem build_suffix_array_length (t : List Char) :
    (build_suffix_array t).length = t.length := by
  rw [build_suffix_array_eq, argsort_length]

theorem build_suffix_array_getD_lt (t : List Char) {p : Nat} (hp : p < t.length) :
    (build_suffix_array t).getD p 0 < t.length := by
  rw [build_suffix_array_eq]
  exact argsort_getD_lt _ hp

theorem lastCol_length (t : List Char) : (lastCol t).length = t.length := by
  unfold lastCol
  rw [List.length_map, build_suffix_array_length]

theorem firstCol_length (t : List Char) : (firstCol t).length = t.length := by
  unfold firstCol
  rw [List.length_map, build_suffix_array_length]

theorem lastCol_getD (t : List Char) {r : Nat} (hr : r < t.length) :
    (lastCol t).getD r 'A'
      = t.getD (predIdx t.length ((build_suffix_array t).getD r 0)) 'A' := by
  unfold lastCol
  exact getD_map _ _ (by rw [build_suffix_array_length]; exact hr) _ 0

theorem firstCol_getD (t : List Char) {r : Nat} (hr : r < t.length) :
    (firstCol t).getD r 'A' = t.getD ((build_suffix_array t).getD r 0) 'A' := by
  unfold firstCol
  exact getD_map _ _ (by rw [build_suffix_array_length]; exact hr) _ 0

/-- Python's `(i - 1) % len` for `0 ≤ i < len` is the circular predecessor. -/
theorem emod_pred {n i : Nat} (hn : 0 < n) (hi : i < n) :
    (((i : Int) - 1) % (n : Int)).toNat = predIdx n i := by
  rcases Nat.eq_zero_or_pos i with h0 | h0
  · subst h0
    rw [predIdx_zero hn]
    have h1 : ((0 : Int) - 1) % (n : Int) = (n : Int) - 1 := by
      have h2 := Int.add_mul_emod_self_left ((0 : Int) - 1) (n : Int) 1
      rw [show (0 : Int) - 1 + (n : Int) * 1 = (n : Int) - 1 from by ring] at h2
      rw [← h2]
      exact Int.emod_eq_of_lt (by omega) (by omega)
    rw [Nat.cast_zero, h1]
    omega
  · rw [predIdx_of_pos h0 hi]
    rw [Int.emod_eq_of_lt (by omega) (by omega)]
    omega

/-- `burrows_wheeler_conversion` computes the last column of the
sentinel-extended sequence. -/
theorem bwc_eq_lastCol (S : List Char) :
    burrows_wheeler_conversion S = lastCol (S ++ [ '$' ]) := by
  unfold burrows_wheeler_conversion lastCol
  dsimp only
  refine List.map_congr_left ?_
  intro i hi
  have hi' : i < (S ++ [ '$' ]).length := by
    rw [build_suffix_array_eq] at hi
    exact (mem_argsort _ _).1 hi
  rw [emod_pred (by simp) hi']

/-- The sequence as the list of its characters by position. -/
theorem self_eq_range_map (t : List Char) :
    t = (List.range t.length).map (fun i => t.getD i 'A') := by
  have h := map_eq_range_map id t 'A'
  simpa using h

theorem perm_range_map {g : Nat → Nat} {n : Nat}
    (hmem : ∀ x, x < n → g x < n)
    (hinj : ∀ x y, x < n → y < n → g x = g y → x = y)
    (hsurj : ∀ z, z < n → ∃ x, x < n ∧ g x = z) :
    ((List.range n).map g).Perm (List.range n) := by
  have hnodup : ((List.range n).map g).Nodup := by
    refine List.Nodup.map_on ?_ (List.nodup_range n)
    intro x hx y hy he
    exact hinj x y (List.mem_range.1 hx) (List.mem_range.1 hy) he
  refine List.perm_of_nodup_nodup_toFinset_eq hnodup (List.nodup_range n) ?_
  refine Finset.ext_iff.mpr ?_
  intro z
  rw [List.mem_toFinset, List.mem_toFinset, List.mem_map, List.mem_range]
  constructor
  · rintro ⟨x, hx, rfl⟩
    exact hmem x (List.mem_range.1 hx)
  · intro hz
    obtain ⟨x, hx, hgx⟩ := hsurj z hz
    exact ⟨x, List.mem_range.mpr hx, hgx⟩

theorem firstCol_perm (t : List Char) : (firstCol t).Perm t := by
  unfold firstCol
  have h1 : ((build_suffix_array t).map (fun i => t.getD i 'A')).Perm
      ((List.range t.length).map (fun i => t.getD i 'A')) := by
    refine List.Perm.map _ ?_
    rw [build_suffix_array_eq]
    exact argsort_perm _ _
  refine h1.trans ?_
  rw [← self_eq_range_map]

theorem lastCol_perm (t : List Char) (hn : 0 < t.length) : (lastCol t).Perm t := by
  unfold lastCol
  have h1 : ((build_suffix_array t).map (fun i => t.getD (predIdx t.length i) 'A')).Perm
      ((List.range t.length).map (fun i => t.getD (predIdx t.length i) 'A')) := by
    refine List.Perm.map _ ?_
    rw [build_suffix_array_eq]
    exact argsort_perm _ _
  refine h1.trans ?_
  have h2 : (List.range t.length).map (fun i => t.getD (predIdx t.length i) 'A')
      = ((List.range t.length).map (fun i => predIdx t.length i)).map
        (fun z => t.getD z 'A') := by
    rw [List.map_map]
    rfl
  rw [h2]
  have h3 : (((List.range t.length).map (fun i => predIdx t.length i)).map
      (fun z => t.getD z 'A')).Perm
      ((List.range t.length).map (fun z => t.getD z 'A')) := by
    refine List.Perm.map _ ?_
    exact perm_range_map (fun x _ => predIdx_lt hn x)
      (fun x y hx hy => predIdx_inj hn hx hy)
      (fun z hz => predIdx_surj hn hz)
  refine h3.trans ?_
  rw [← self_eq_range_map]

theorem firstCol_sorted (t : List Char) (hn : 0 < t.length) :
    List.Sorted (fun a b : Char => a ≤ b) (firstCol t) := by
  unfold firstCol
  rw [build_suffix_array_eq]
  refine List.pairwise_map.mpr ?_
  refine List.Pairwise.imp_of_mem ?_ (argsort_sorted (fun i => cycPre t t.length i) t.length)
  intro a b ha hb hab
  have ha' := (mem_argsort _ t.length).1 ha
  have hb' := (mem_argsort _ t.length).1 hb
  refine head_le_of_cycPre_le t hn ha' hb' ?_
  rcases hab with h | h
  · exact Or.inl h
  · exact Or.inr h.1

/-- The sorted last column is the first column. -/
theorem sort_lastCol_eq_firstCol (t : List Char) (hn : 0 < t.length) :
    List.insertionSort (fun a b : Char => a ≤ b) (lastCol t) = firstCol t := by
  refine List.eq_of_perm_of_sorted ?_ ?_ (firstCol_sorted t hn)
  · exact (List.perm_insertionSort _ _).trans ((lastCol_perm t hn).trans (firstCol_perm t).symm)
  · exact List.sorted_insertionSort _ _

end Columns

/-!
### Correctness of the last-to-first mapping
-/

/-- The row of rotation `x` in the sorted rotation matrix. -/
def rowOf (t : List Char) (x : Nat) : Nat := (build_suffix_array t).indexOf x

section LFCorrect

theorem rowOf_spec (t : List Char) {x : Nat} (hx : x < t.length) :
    rowOf t x < t.length ∧ (build_suffix_array t).getD (rowOf t x) 0 = x := by
  unfold rowOf
  rw [build_suffix_array_eq]
  exact indexOf_argsort_spec _ hx

theorem rowOf_getD (t : List Char) {p : Nat} (hp : p < t.length) :
    rowOf t ((build_suffix_array t).getD p 0) = p := by
  unfold rowOf
  rw [build_suffix_array_eq]
  exact indexOf_argsort_getD _ hp

theorem rowOf_lt_iff (t : List Char) (hn : 0 < t.length)
    (hsent : ∀ y, y < t.length → (t.getD y 'A' = '$' ↔ y = t.length - 1))
    {a b : Nat} (ha : a < t.length) (hb : b < t.length) :
    (rowOf t a < rowOf t b ↔ cycPre t t.length a < cycPre t t.length b) := by
  unfold rowOf
  rw [build_suffix_array_eq]
  exact indexOf_argsort_lt_iff _ (rot_inj_of_sentinel t hn hsent) ha hb

/-- The LF-mapping computed by `map_last_to_first` sends row `r` to the row of
the predecessor rotation. -/
theorem lf_correct (t : List Char) (hn : 0 < t.length)
    (hsent : ∀ y, y < t.length → (t.getD y 'A' = '$' ↔ y = t.length - 1))
    {r : Nat} (hr : r < t.length) :
    (map_last_to_first (lastCol t)).getD r 0 =
      rowOf t (predIdx t.length ((build_suffix_array t).getD r 0)) := by
  have hinj := rot_inj_of_sentinel t hn hsent
  have hx : (build_suffix_array t).getD r 0 < t.length := build_suffix_array_getD_lt t hr
  set x := (build_suffix_array t).getD r 0 with hxe
  set c := t.getD (predIdx t.length x) 'A' with hce
  have hLlen : (lastCol t).length = t.length := lastCol_length t
  have hLr : (lastCol t).getD r 'A' = c := by
    rw [lastCol_getD t hr, hce]
  have hL : (map_last_to_first (lastCol t)).getD r 0
      = (firstCol t).indexOf c + ((lastCol t).take r).count c := by
    rw [map_last_to_first_getD (lastCol t) (by rw [hLlen]; exact hr)]
    rw [sort_lastCol_eq_firstCol t hn, hLr]
  rw [hL]
  unfold rowOf
  rw [build_suffix_array_eq]
  rw [indexOf_argsort_eq_countP _ hinj (predIdx_lt hn x)]
  rw [countP_reindex (predIdx t.length) t.length (fun y _ => predIdx_lt hn y)
    (fun a b ha hb => predIdx_inj hn ha hb) (fun z hz => predIdx_surj hn hz)]
  have hstep1 : (List.range t.length).countP
      (fun y' => decide (cycPre t t.length (predIdx t.length y') <
        cycPre t t.length (predIdx t.length x)))
      = (List.range t.length).countP
        (fun y' => decide ((t.getD (predIdx t.length y') 'A' < c) ∨
          (t.getD (predIdx t.length y') 'A' = c ∧
            cycPre t t.length y' < cycPre t t.length x))) := by
    refine List.countP_congr ?_
    intro y' hy'
    have hy'' := List.mem_range.1 hy'
    simp only [decide_eq_true_eq]
    rw [hce]
    exact rotPred_lt_iff t hn hx hy''
  rw [hstep1]
  rw [countP_disjoint_or
    (fun y' => t.getD (predIdx t.length y') 'A' < c)
    (fun y' => t.getD (predIdx t.length y') 'A' = c ∧
      cycPre t t.length y' < cycPre t t.length x)
    (by
      rintro a ⟨h1, h2, _⟩
      rw [h2] at h1
      exact lt_irrefl _ h1)]
  have hcmem : c ∈ firstCol t := by
    refine (firstCol_perm t).mem_iff.mpr ?_
    rw [hce]
    have hp : predIdx t.length x < t.length := predIdx_lt hn x
    rw [List.getD_eq_getElem _ _ hp]
    exact List.getElem_mem hp
  have hterm1 : (List.range t.length).countP
      (fun y' => decide (t.getD (predIdx t.length y') 'A' < c))
      = (firstCol t).indexOf c := by
    rw [← countP_reindex (predIdx t.length) t.length (fun y _ => predIdx_lt hn y)
      (fun a b ha hb => predIdx_inj hn ha hb) (fun z hz => predIdx_surj hn hz)
      (fun z => decide (t.getD z 'A' < c))]
    have ht : (List.range t.length).countP (fun z => decide (t.getD z 'A' < c))
        = t.countP (fun a => decide (a < c)) := by
      conv_rhs => rw [self_eq_range_map t]
      rw [List.countP_map]
      rfl
    rw [ht]
    rw [List.Perm.countP_eq _ (firstCol_perm t).symm]
    rw [sorted_indexOf_countP (firstCol_sorted t hn) hcmem]
  have hterm2 : (List.range t.length).countP
      (fun y' => decide (t.getD (predIdx t.length y') 'A' = c ∧
        cycPre t t.length y' < cycPre t t.length x))
      = ((lastCol t).take r).count c := by
    have hpt : (List.range t.length).countP
        (fun y' => decide (t.getD (predIdx t.length y') 'A' = c ∧
          cycPre t t.length y' < cycPre t t.length x))
        = (List.range t.length).countP
          (fun y' => decide ((lastCol t).getD (rowOf t y') 'A' = c ∧ rowOf t y' < r)) := by
      refine List.countP_congr ?_
      intro y' hy'
      have hy'' := List.mem_range.1 hy'
      simp only [decide_eq_true_eq]
      have h1 : (lastCol t).getD (rowOf t y') 'A' = t.getD (predIdx t.length y') 'A' := by
        rw [lastCol_getD t (rowOf_spec t hy'').1, (rowOf_spec t hy'').2]
      have h2 : (rowOf t y' < r ↔ cycPre t t.length y' < cycPre t t.length x) := by
        have h3 := rowOf_lt_iff t hn hsent hy'' hx
        rw [hxe] at h3
        rw [rowOf_getD t hr] at h3
        rw [← hxe] at h3
        exact h3
      rw [h1, h2]
    rw [hpt]
    rw [← countP_reindex (rowOf t) t.length (fun y hy => (rowOf_spec t hy).1)
      (fun a b ha hb he => by
        have h1 := (rowOf_spec t ha).2
        have h2 := (rowOf_spec t hb).2
        rw [he] at h1
        exact h1.symm.trans h2)
      (fun z hz => ⟨(build_suffix_array t).getD z 0,
        build_suffix_array_getD_lt t hz, rowOf_getD t hz⟩)
      (fun p => decide ((lastCol t).getD p 'A' = c ∧ p < r))]
    have h4 := count_take_eq_countP_range (lastCol t) c (r := r) (by rw [hLlen]; omega)
    rw [hLlen] at h4
    exact h4
  rw [hterm1, hterm2]

end LFCorrect

/-!
### The reconstruction walk and the round trip
-/

section Walk

theorem revertLoop_spec (t : List Char) (hn : 0 < t.length)
    (hsent : ∀ y, y < t.length → (t.getD y 'A' = '$' ↔ y = t.length - 1)) :
    ∀ (m : Nat) {x : Nat}, x < t.length →
      revertLoop (lastCol t) (map_last_to_first (lastCol t)) m (rowOf t x)
        = (List.range m).map (fun j => t.getD ((predIdx t.length)^[m - j] x) 'A') := by
  intro m
  induction m with
  | zero =>
    intro x _
    rfl
  | succ m ih =>
    intro x hx
    rw [revertLoop]
    have hrow := rowOf_spec t hx
    have hlf : (map_last_to_first (lastCol t)).getD (rowOf t x) 0
        = rowOf t (predIdx t.length x) := by
      rw [lf_correct t hn hsent hrow.1, hrow.2]
    have hchar : (lastCol t).getD (rowOf t x) 'A' = t.getD (predIdx t.length x) 'A' := by
      rw [lastCol_getD t hrow.1, hrow.2]
    rw [hlf, hchar, ih (predIdx_lt hn x)]
    rw [List.range_succ, List.map_append, List.map_cons, List.map_nil]
    congr 1
    · refine List.map_congr_left ?_
      intro j hj
      have hj' := List.mem_range.1 hj
      rw [show m + 1 - j = (m - j) + 1 from by omega, Function.iterate_succ_apply]
    · rw [show m + 1 - m = 1 from by omega, Function.iterate_one]

theorem predIdx_iterate {n : Nat} (hn : 0 < n) :
    ∀ m, 1 ≤ m → m ≤ n → (predIdx n)^[m] 0 = n - m := by
  intro m
  induction m with
  | zero => omega
  | succ m ih =>
    intro _ h2
    rcases Nat.eq_zero_or_pos m with h0 | h0
    · subst h0
      show (predIdx n)^[1] 0 = n - 1
      rw [Function.iterate_one]
      exact predIdx_zero hn
    · rw [Function.iterate_succ_apply', ih h0 (by omega)]
      rw [predIdx_of_pos (by omega) (by omega)]
      omega

/-- The full walk, started at the sentinel row, spells out the whole sequence
in order. -/
theorem walk_eq_self (t : List Char) (hn : 0 < t.length)
    (hsent : ∀ y, y < t.length → (t.getD y 'A' = '$' ↔ y = t.length - 1)) :
    revertLoop (lastCol t) (map_last_to_first (lastCol t)) t.length (rowOf t 0) = t := by
  rw [revertLoop_spec t hn hsent t.length hn]
  conv_rhs => rw [self_eq_range_map t]
  refine List.map_congr_left ?_
  intro j hj
  have hj' := List.mem_range.1 hj
  rw [predIdx_iterate hn (t.length - j) (by omega) (by omega)]
  congr 2
  omega

theorem lastCol_sentinel_iff (t : List Char) (hn : 0 < t.length)
    (hsent : ∀ y, y < t.length → (t.getD y 'A' = '$' ↔ y = t.length - 1))
    {r : Nat} (hr : r < t.length) :
    ((lastCol t).getD r 'A' = '$' ↔ (build_suffix_array t).getD r 0 = 0) := by
  rw [lastCol_getD t hr]
  have hx := build_suffix_array_getD_lt t hr
  rw [hsent _ (predIdx_lt hn _)]
  exact predIdx_eq_last_iff hn hx

theorem indexOf_eq_of_unique (l : List Char) (c : Char) (r : Nat) (hr : r < l.length)
    (hget : l.getD r 'A' = c)
    (huniq : ∀ r', r' < l.length → l.getD r' 'A' = c → r' = r) :
    l.indexOf c = r := by
  have hmem : c ∈ l := by
    rw [← hget, List.getD_eq_getElem _ _ hr]
    exact List.getElem_mem hr
  have hlt : l.indexOf c < l.length := List.indexOf_lt_length.mpr hmem
  have hgi : l.getD (l.indexOf c) 'A' = c := by
    rw [List.getD_eq_getElem _ _ hlt]
    exact List.getElem_indexOf hlt
  exact huniq _ hlt hgi

theorem lastCol_indexOf_sentinel (t : List Char) (hn : 0 < t.length)
    (hsent : ∀ y, y < t.length → (t.getD y 'A' = '$' ↔ y = t.length - 1)) :
    (lastCol t).indexOf '$' = rowOf t 0 := by
  have hrow := rowOf_spec t hn
  refine indexOf_eq_of_unique _ _ _ ?_ ?_ ?_
  · rw [lastCol_length]
    exact hrow.1
  · exact (lastCol_sentinel_iff t hn hsent hrow.1).mpr hrow.2
  · intro r' hr' hget
    rw [lastCol_length] at hr'
    have h1 := (lastCol_sentinel_iff t hn hsent hr').mp hget
    have h2 := rowOf_getD t hr'
    rw [h1] at h2
    exact h2.symm

theorem sentinel_spec_append (S : List Char) (hS : '$' ∉ S) :
    ∀ y, y < (S ++ [ '$' ]).length →
      ((S ++ [ '$' ]).getD y 'A' = '$' ↔ y = (S ++ [ '$' ]).length - 1) := by
  intro y hy
  have hlen : (S ++ [ '$' ]).length = S.length + 1 := by simp
  rw [hlen] at hy ⊢
  rcases Nat.lt_or_ge y S.length with h | h
  · rw [List.getD_eq_getElem _ _ (by rw [hlen]; omega),
      List.getElem_append_left h]
    constructor
    · intro hc
      exfalso
      refine hS ?_
      rw [← hc]
      exact List.getElem_mem h
    · intro hc
      omega
  · have hy' : y = S.length := by omega
    subst hy'
    rw [List.getD_eq_getElem _ _ (by rw [hlen]; omega),
      List.getElem_append_right (le_refl _)]
    simp

/-- The round trip: decoding the transform of any sentinel-free sequence
recovers the sequence. -/
theorem revert_bwc (S : List Char) (hS : '$' ∉ S) :
    revert_burrows_wheeler (burrows_wheeler_conversion S) = some S := by
  have hn : 0 < (S ++ [ '$' ]).length := by simp
  have hsent := sentinel_spec_append S hS
  have hrow := rowOf_spec (S ++ [ '$' ]) hn
  have hmem : '$' ∈ lastCol (S ++ [ '$' ]) := by
    have h1 := (lastCol_sentinel_iff (S ++ [ '$' ]) hn hsent hrow.1).mpr hrow.2
    have h2 : (lastCol (S ++ [ '$' ])).getD (rowOf (S ++ [ '$' ]) 0) 'A'
        ∈ lastCol (S ++ [ '$' ]) := by
      rw [List.getD_eq_getElem _ _ (by rw [lastCol_length]; exact hrow.1)]
      exact List.getElem_mem _
    rwa [h1] at h2
  rw [bwc_eq_lastCol]
  unfold revert_burrows_wheeler
  dsimp only
  rw [dif_pos hmem]
  rw [lastCol_indexOf_sentinel (S ++ [ '$' ]) hn hsent, lastCol_length]
  rw [walk_eq_self (S ++ [ '$' ]) hn hsent]
  rw [List.dropLast_concat]

end Walk

/-!
### Support for the claim theorems
-/

section ClaimSupport

/-- Every round of the doubling loop (and hence its final value) keeps the
suffix array a permutation of `0..n-1`: each round reorders the current array
along a stable argsort of the rank pairs. -/
theorem saLoop_perm (n : Nat) :
    ∀ (fuel k : Nat) (sa ranks : List Nat), sa.Perm (List.range n) →
      (saLoop n sa ranks k fuel).Perm (List.range n) := by
  intro fuel
  induction fuel with
  | zero =>
    intro k sa ranks hsa
    exact hsa
  | succ fuel ih =>
    intro k sa ranks hsa
    rw [saLoop]
    by_cases hcond : k < n
    · rw [if_pos hcond]
      dsimp only
      have hperm : ∀ key : Nat → Lex (Nat × Nat),
          ((argsort key sa.length).map (fun j => sa.getD j 0)).Perm (List.range n) := by
        intro key
        have h1 := List.Perm.map (fun j => sa.getD j 0) (argsort_perm key sa.length)
        rw [range_map_getD sa] at h1
        exact h1.trans hsa
      have hlen : (sa.map (fun i =>
          toLex (ranks.getD i 0, ranks.getD ((i + k) % n) 0))).length = sa.length := by
        simp
      rw [hlen]
      split
      · exact hperm _
      · exact ih (2 * k) _ _ (hperm _)
    · rw [if_neg hcond]
      exact hsa

/-- The transform of any sequence has one character per entry of the suffix
array of the sentinel-extended sequence, hence length `n + 1`. -/
theorem bwc_length (seq : List Char) :
    (burrows_wheeler_conversion seq).length = seq.length + 1 := by
  unfold burrows_wheeler_conversion
  dsimp only
  rw [List.length_map, build_suffix_array_length]
  simp

/-- The fixed nucleotide code alphabet of the specification (the IUPAC codes
accepted by the client's validation, without the sentinel). -/
def nucAlphabet : List Char :=
  ['A', 'C', 'G', 'T', 'R', 'Y', 'S', 'W', 'K', 'M', 'B', 'D', 'H', 'V', 'N']

end ClaimSupport

/-!
### The claim theorems
-/

section Claims

/-- Claim C1: for every sequence over the fixed alphabet
{A,C,G,T,R,Y,S,W,K,M,B,D,H,V,N} (which excludes the sentinel), of any length
including 0, decoding the transform recovers the sequence. -/
theorem claim_C1_round_trip (S : List Char) (hS : ∀ c ∈ S, c ∈ nucAlphabet) :
    revert_burrows_wheeler (burrows_wheeler_conversion S) = some S := by
  refine revert_bwc S ?_
  intro hmem
  exact absurd (hS '$' hmem) (by decide)

/-- Witness for C1 at the concrete sequence "ACGT". -/
theorem claim_C1_witness :
    (∀ c ∈ (['A', 'C', 'G', 'T'] : List Char), c ∈ nucAlphabet) ∧
      revert_burrows_wheeler (burrows_wheeler_conversion ['A', 'C', 'G', 'T'])
        = some ['A', 'C', 'G', 'T'] :=
  ⟨by decide, claim_C1_round_trip ['A', 'C', 'G', 'T'] (by decide)⟩

/-- Claim C2, corrected: `build_suffix_array` does NOT sort suffix start
offsets by suffix order; it returns the start offsets sorted by the full
lexicographic order of the circular ROTATIONS, ties broken by original index
(for a sequence containing the sentinel once the two orders coincide, but not
in general). -/
theorem claim_C2_rotations (s : List Char) (_hn : 1 ≤ s.length) :
    build_suffix_array s = refRotationSort s ∧
      ∀ p q, p < q → q < s.length →
        rot s ((build_suffix_array s).getD p 0) ≤ rot s ((build_suffix_array s).getD q 0) := by
  refine ⟨build_suffix_array_eq_refRotationSort s, ?_⟩
  intro p q hpq hq
  have hrel := argsort_rel (fun i => rot s i) (n := s.length) hpq hq
  unfold argKeyRel at hrel
  rw [build_suffix_array_eq_refRotationSort]
  unfold refRotationSort
  rcases hrel with h | h
  · exact le_of_lt h
  · exact le_of_eq h.1

/-- Counterexample to C2 as stated: on "AAAA" the builder returns [0,1,2,3],
the reference suffix sort (ties broken by index) is [3,2,1,0], and the suffix
starting at output position 0 is NOT lexicographically ≤ the suffix starting
at output position 1. -/
theorem claim_C2_cex :
    build_suffix_array ['A', 'A', 'A', 'A'] = [0, 1, 2, 3] ∧
      refSuffixSort ['A', 'A', 'A', 'A'] = [3, 2, 1, 0] ∧
      ¬ ((['A', 'A', 'A', 'A'] : List Char).drop
            ((build_suffix_array ['A', 'A', 'A', 'A']).getD 0 0)
          ≤ (['A', 'A', 'A', 'A'] : List Char).drop
            ((build_suffix_array ['A', 'A', 'A', 'A']).getD 1 0)) := by
  decide

/-- Witness for the corrected C2 at the concrete sequence "AAAA". -/
theorem claim_C2_witness :
    1 ≤ (['A', 'A', 'A', 'A'] : List Char).length ∧
      (build_suffix_array ['A', 'A', 'A', 'A'] = refRotationSort ['A', 'A', 'A', 'A'] ∧
        ∀ p q, p < q → q < (['A', 'A', 'A', 'A'] : List Char).length →
          rot ['A', 'A', 'A', 'A'] ((build_suffix_array ['A', 'A', 'A', 'A']).getD p 0)
            ≤ rot ['A', 'A', 'A', 'A'] ((build_suffix_array ['A', 'A', 'A', 'A']).getD q 0)) :=
  ⟨by decide, claim_C2_rotations ['A', 'A', 'A', 'A'] (by decide)⟩

/-- Claim C3, corrected: there is no typed sentinel-count error.  The decoder
fails (an uncaught IndexError, embedded as `none`) exactly when the input has
NO sentinel; with one or more sentinels — in particular two or more — it
returns a result string. -/
theorem claim_C3_sentinel (bwt : List Char) :
    revert_burrows_wheeler bwt = none ↔ '$' ∉ bwt := by
  unfold revert_burrows_wheeler
  dsimp only
  by_cases h : '$' ∈ bwt
  · rw [dif_pos h]
    simp [h]
  · rw [dif_neg h]
    simp [h]

/-- Counterexample to C3 as stated: on the two-sentinel input "$$" the decoder
raises nothing and returns the output "$" (a garbage result built from the
first sentinel occurrence), instead of failing with no output. -/
theorem claim_C3_cex :
    revert_burrows_wheeler ['$', '$'] = some ['$'] := by
  decide

/-- Witness for the corrected C3 at the sentinel-free input "A". -/
theorem claim_C3_witness :
    revert_burrows_wheeler ['A'] = none ↔ '$' ∉ (['A'] : List Char) :=
  claim_C3_sentinel ['A']

/-- Claim C4, corrected: the encoder performs no sentinel check and raises no
typed error; even when the input already contains the sentinel it appends
another one and produces a transform string of length `n + 1`. -/
theorem claim_C4_no_check (seq : List Char) (_h : '$' ∈ seq) :
    (burrows_wheeler_conversion seq).length = seq.length + 1 :=
  bwc_length seq

/-- Counterexample to C4 as stated: on the input "$", which already contains
the sentinel, the encoder produces the transform "$$" instead of raising an
error. -/
theorem claim_C4_cex :
    burrows_wheeler_conversion ['$'] = ['$', '$'] := by
  decide

/-- Witness for the corrected C4 at the input "$". -/
theorem claim_C4_witness :
    '$' ∈ (['$'] : List Char) ∧
      (burrows_wheeler_conversion ['$']).length = (['$'] : List Char).length + 1 :=
  ⟨by decide, claim_C4_no_check ['$'] (by decide)⟩

/-- Claim C5: for a sentinel-free sequence S of length n, the transform has
length n + 1 and its entry at position i is the character of S′ = S ++ "$" at
Python index `(SA[i] - 1) % (n + 1)` (flooring integer modulus), where SA is
the suffix array of S′. -/
theorem claim_C5_transform (S : List Char) (_hS : '$' ∉ S) :
    (burrows_wheeler_conversion S).length = S.length + 1 ∧
      ∀ i, i < S.length + 1 →
        (burrows_wheeler_conversion S).getD i 'A' =
          (S ++ [ '$' ]).getD
            (((((build_suffix_array (S ++ [ '$' ])).getD i 0 : Int) - 1)
              % ((S ++ [ '$' ]).length : Int)).toNat) 'A' := by
  have hlen : (S ++ [ '$' ]).length = S.length + 1 := by simp
  refine ⟨bwc_length S, ?_⟩
  intro i hi
  have hi' : i < (S ++ [ '$' ]).length := by omega
  have hx : (build_suffix_array (S ++ [ '$' ])).getD i 0 < (S ++ [ '$' ]).length :=
    build_suffix_array_getD_lt _ hi'
  rw [bwc_eq_lastCol, lastCol_getD _ hi']
  rw [emod_pred (by omega) hx]

/-- Witness for C5 at the concrete sequence "AC". -/
theorem claim_C5_witness :
    '$' ∉ (['A', 'C'] : List Char) ∧
      ((burrows_wheeler_conversion ['A', 'C']).length = (['A', 'C'] : List Char).length + 1 ∧
        ∀ i, i < (['A', 'C'] : List Char).length + 1 →
          (burrows_wheeler_conversion ['A', 'C']).getD i 'A' =
            (['A', 'C'] ++ [ '$' ]).getD
              (((((build_suffix_array (['A', 'C'] ++ [ '$' ])).getD i 0 : Int) - 1)
                % ((['A', 'C'] ++ [ '$' ] : List Char).length : Int)).toNat) 'A') :=
  ⟨by decide, claim_C5_transform ['A', 'C'] (by decide)⟩

/-- Claim C6: for every string T and position i, the last-to-first map at i is
the index of the first occurrence of T[i] in the sorted copy of T plus the
number of occurrences of T[i] among T[0..i-1]. -/
theorem claim_C6_lf (T : List Char) (i : Nat) (hi : i < T.length) :
    (map_last_to_first T).getD i 0 =
      (List.insertionSort (fun a b => a ≤ b) T).indexOf (T.getD i 'A')
        + (T.take i).count (T.getD i 'A') :=
  map_last_to_first_getD T hi

/-- Witness for C6 at the string "AB$" and position 1. -/
theorem claim_C6_witness :
    1 < (['A', 'B', '$'] : List Char).length ∧
      (map_last_to_first ['A', 'B', '$']).getD 1 0 =
        (List.insertionSort (fun a b => a ≤ b) ['A', 'B', '$']).indexOf
            ((['A', 'B', '$'] : List Char).getD 1 'A')
          + ((['A', 'B', '$'] : List Char).take 1).count
            ((['A', 'B', '$'] : List Char).getD 1 'A') :=
  ⟨by decide, claim_C6_lf ['A', 'B', '$'] 1 (by decide)⟩

/-- Claim C7: for every sequence of length ≥ 1 the suffix array builder
returns a permutation of 0..n-1, and this invariant holds after every doubling
round: the loop maps any permutation of 0..n-1 to a permutation of 0..n-1,
whichever round it stops at. -/
theorem claim_C7_perm (s : List Char) (_hn : 1 ≤ s.length) :
    (build_suffix_array s).Perm (List.range s.length) ∧
      ∀ (sa ranks : List Nat) (k fuel : Nat),
        sa.Perm (List.range s.length) →
          (saLoop s.length sa ranks k fuel).Perm (List.range s.length) := by
  constructor
  · rw [build_suffix_array_eq]
    exact argsort_perm _ _
  · intro sa ranks k fuel hsa
    exact saLoop_perm s.length fuel k sa ranks hsa

/-- Witness for C7 at the concrete sequence "A". -/
theorem claim_C7_witness :
    1 ≤ (['A'] : List Char).length ∧
      ((build_suffix_array ['A']).Perm (List.range (['A'] : List Char).length) ∧
        ∀ (sa ranks : List Nat) (k fuel : Nat),
          sa.Perm (List.range (['A'] : List Char).length) →
            (saLoop (['A'] : List Char).length sa ranks k fuel).Perm
              (List.range (['A'] : List Char).length)) :=
  ⟨by decide, claim_C7_perm ['A'] (by decide)⟩

/-- Claim C8: both conversion functions are deterministic — they are pure
functions of their input string alone, so equal inputs yield equal outputs. -/
theorem claim_C8_deterministic (s₁ s₂ : List Char) (h : s₁ = s₂) :
    burrows_wheeler_conversion s₁ = burrows_wheeler_conversion s₂ ∧
      revert_burrows_wheeler s₁ = revert_burrows_wheeler s₂ := by
  rw [h]
  exact ⟨rfl, rfl⟩

/-- Witness for C8 at two runs on the sequence "ACGT". -/
theorem claim_C8_witness :
    (['A', 'C', 'G', 'T'] : List Char) = ['A', 'C', 'G', 'T'] ∧
      (burrows_wheeler_conversion ['A', 'C', 'G', 'T']
          = burrows_wheeler_conversion ['A', 'C', 'G', 'T'] ∧
        revert_burrows_wheeler ['A', 'C', 'G', 'T']
          = revert_burrows_wheeler ['A', 'C', 'G', 'T']) :=
  ⟨rfl, claim_C8_deterministic ['A', 'C', 'G', 'T'] ['A', 'C', 'G', 'T'] rfl⟩

/-- Claim C9: on the empty input the encoder's fixed policy is the first of
the two allowed alternatives — it returns the single-symbol sentinel string
"$" (there is no EmptyInputError in the code, and no error is raised). -/
theorem claim_C9_empty : burrows_wheeler_conversion [] = ['$'] := by
  decide

/-- Claim C10: decoding the one-character string "$" is defined, raises no
error, and returns the empty string. -/
theorem claim_C10_sentinel_only : revert_burrows_wheeler ['$'] = some [] := by
  decide

end Claims

end BWT

